import Mathlib

/-!
Verification development for the Incoming-Bills-Dashboard vendor-name
resolution pipeline.

The embedding below translates the three Python scripts of the repository:

* `scripts/rebuild_normalization_deterministic.py` — the deterministic
  override/classifier/exact/aggressive/location cascade;
* `scripts/rebuild_normalization_map_v2.py` — the fuzzy normalization-map
  builder (override, location-constrained, global, partial stages);
* `scripts/update_dashboard.py` — the per-invoice-row dashboard matcher.

Modelling conventions, used consistently below:

* Strings are modelled through `List Char`; Python's `str.upper`/`str.lower`
  are modelled for ASCII (the scripts' data and the concrete inputs used in
  the theorems are ASCII).
* Python regex `\s` is modelled by its ASCII members (space, tab, newline,
  vertical tab, form feed, carriage return); regex `\w` (used for the word
  boundaries `\b`) is modelled by ASCII alphanumerics, the underscore, and —
  as an approximation of Unicode word characters — any code point at or
  above 128.
* The rapidfuzz scorers `fuzz.token_sort_ratio` and `fuzz.partial_ratio`
  are external library functions, not code of this repository; matching
  cascades are parameterised over abstract scorers
  `String → String → Nat`, and `process.extractOne` is modelled by a fold
  keeping the first strictly-best candidate (rapidfuzz's tie behaviour).
* The scripts' memoisation caches (`location_cache`, `vendor_cache`,
  `cp_to_location`) store results of pure computations and are written at
  most once per key, so cache reads always reproduce the corresponding
  recomputation; they are modelled transparently by direct recomputation.
* Python `dict` assignment overwrites (last write wins) while preserving
  the key's first-insertion position; `dictUpsert` below models this.
  Builders that guard with `not in` use `dictInsertIfAbsent`
  (first write wins).  Python `set` values (location vendor sets) are
  modelled as duplicate-free lists in first-appearance order.
-/

/-- ASCII members of Python's regex class `\s`. -/
def pyIsSpace (c : Char) : Bool :=
  c = ' ' || c = '\t' || c = '\n' || c = '\x0b' || c = '\x0c' || c = '\r'

/-- ASCII model of Python `str.upper` applied characterwise. -/
def pyUpperC (c : Char) : Char :=
  if 'a' ≤ c ∧ c ≤ 'z' then Char.ofNat (c.toNat - 32) else c

/-- ASCII model of Python `str.lower` applied characterwise. -/
def pyLowerC (c : Char) : Char :=
  if 'A' ≤ c ∧ c ≤ 'Z' then Char.ofNat (c.toNat + 32) else c

/-- Python's regex class `\w` (word characters), ASCII-faithful; code points
at or above 128 are approximated as word characters. -/
def isWordChar (c : Char) : Bool :=
  c.isUpper || c.isLower || c.isDigit || c = '_' || 128 ≤ c.toNat

/-- Model of `re.sub(r'\s+', ' ', s)`: every maximal whitespace run becomes
a single space.  `prevSp` records whether the previous character was
whitespace (i.e. whether we are inside a run). -/
def collapseGo (prevSp : Bool) : List Char → List Char
  | [] => []
  | c :: cs =>
    if pyIsSpace c then
      if prevSp then collapseGo true cs else ' ' :: collapseGo true cs
    else c :: collapseGo false cs

def collapseWS (l : List Char) : List Char := collapseGo false l

/-- Python `str.strip()` from the left (whitespace model as above). -/
def stripL (l : List Char) : List Char := l.dropWhile pyIsSpace

/-- Python `str.strip()` from the right. -/
def stripR (l : List Char) : List Char := (l.reverse.dropWhile pyIsSpace).reverse

/-- Python `str.strip()`. -/
def pyStrip (l : List Char) : List Char := stripR (stripL l)

/-- `clean_name` from `rebuild_normalization_map_v2.py` (also the vendor-name
cleanup applied when the deterministic script loads invoice rows):
newlines to spaces, whitespace runs collapsed, then stripped. -/
def clean_name (s : String) : String :=
  ⟨pyStrip (collapseWS (s.data.map (fun c => if c = '\n' then ' ' else c)))⟩

/-- `normalize_for_lookup` from `rebuild_normalization_deterministic.py`:
strip, collapse whitespace runs, uppercase. -/
def normalize_for_lookup (s : String) : String :=
  if s = "" then "" else ⟨(collapseWS (pyStrip s.data)).map pyUpperC⟩

/-- Uppercase a whole string (model of Python `str.upper`). -/
def pyUpperS (s : String) : String := ⟨s.data.map pyUpperC⟩

/-- Lowercase a whole string (model of Python `str.lower`). -/
def pyLowerS (s : String) : String := ⟨s.data.map pyLowerC⟩

/-! ### Word-boundary suffix-token removal

`rebuild_normalization_deterministic.py` removes legal-entity suffixes with
`re.sub(r'\b(INC\.?|LLC\.?|CORP\.?|CO\.?|L\.?L\.?C\.?)\b', '', name)` and
`rebuild_normalization_map_v2.py` removes a larger dotless token list.  The
scanner below implements Python's leftmost scan with first-successful
alternative and the backtracking of the optional trailing dot against the
trailing word boundary. -/

/-- Match a literal alternative at the head of `l`; on success return the
remaining characters. -/
def matchLit (tok : List Char) (l : List Char) : Option (List Char) :=
  if tok.isPrefixOf l then some (l.drop tok.length) else none

/-- After the literal part of a dotted alternative (whose last character is a
letter), consume the regex tail `\.?\b`: the optional dot is kept only when
the trailing word boundary still holds, otherwise the engine backtracks to
the dotless reading (whose trailing boundary letter/non-letter always
holds against a dot).  Returns `(lastConsumedIsWord, rest)`. -/
def suffixTail : List Char → Option (Bool × List Char)
  | [] => some (true, [])
  | '.' :: rest =>
    match rest with
    | [] => some (true, ['.'])
    | c :: _ => if isWordChar c then some (false, rest) else some (true, '.' :: rest)
  | c :: rest => if isWordChar c then none else some (true, c :: rest)

/-- Try one alternative (its literal, then `\.?\b`) at the head of `l`. -/
def tryTokAt (tok : List Char) (l : List Char) : Option (Bool × List Char) :=
  match matchLit tok l with
  | some rest => suffixTail rest
  | none => none

/-- First alternative (in pattern order) that matches, if any. -/
def firstSome (f : α → Option β) : List α → Option β
  | [] => none
  | a :: as =>
    match f a with
    | some b => some b
    | none => firstSome f as

/-- The alternatives of the deterministic script's suffix pattern, in the
pattern's (and hence the regex engine's) order; `L\.?L\.?C` is expanded into
its four literal forms in greedy-backtracking order (at most one of them can
match a given text, so the expansion is faithful). -/
def DET_ALTS : List (List Char) :=
  ["INC".data, "LLC".data, "CORP".data, "CO".data,
   "L.L.C".data, "L.LC".data, "LL.C".data, "LLC".data]

/-- Attempt the deterministic suffix pattern at the current position. -/
def tryAlts (l : List Char) : Option (Bool × List Char) :=
  firstSome (fun tok => tryTokAt tok l) DET_ALTS

/-- The token list of `normalize_name` in `rebuild_normalization_map_v2.py`,
in pattern order. -/
def V2_TOKS : List (List Char) :=
  ["INC".data, "LLC".data, "CORP".data, "CO".data, "COMPANY".data,
   "SERVICES".data, "SERVICE".data, "DISPOSAL".data, "WASTE".data,
   "SANITATION".data]

/-- Attempt the v2 (dotless) token pattern at the current position: a literal
token followed by a word boundary. -/
def tryPlainV2 (l : List Char) : Option (Bool × List Char) :=
  firstSome
    (fun tok =>
      match matchLit tok l with
      | some rest =>
        match rest with
        | [] => some (true, ([] : List Char))
        | c :: _ => if isWordChar c then none else some (true, rest)
      | none => none)
    V2_TOKS

/-- Generic fueled scanner for `re.sub(pattern, '', s)` where every match of
`pattern` starts at a word boundary before a word character.  `prevW` is the
wordness of the previous character (false at the start of the string); on a
match the scan resumes after the consumed span, whose last character's
wordness the matcher reports.  The fuel is at least the list length at every
call, so the `0` case is unreachable. -/
def remGenF (tm : List Char → Option (Bool × List Char)) :
    Nat → Bool → List Char → List Char
  | 0, _, l => l
  | _ + 1, _, [] => []
  | n + 1, prevW, c :: cs =>
    if prevW = false ∧ isWordChar c = true then
      match tm (c :: cs) with
      | some (lastW, rest) => remGenF tm n lastW rest
      | none => c :: remGenF tm n (isWordChar c) cs
    else c :: remGenF tm n (isWordChar c) cs

/-- A matcher is admissible when every match consumes at least two characters
and leaves an actual tail of its input. -/
def TMdrops (tm : List Char → Option (Bool × List Char)) : Prop :=
  ∀ l w rest, tm l = some (w, rest) → ∃ k, 2 ≤ k ∧ rest = List.drop k l

/-- Run the scanner with just enough fuel. -/
def remGen (tm : List Char → Option (Bool × List Char)) (b : Bool) (l : List Char) :
    List Char :=
  remGenF tm l.length b l

/-- `normalize_aggressive` from `rebuild_normalization_deterministic.py`:
uppercase, remove the suffix alternatives at word boundaries, turn remaining
non-`[A-Z0-9\s]` characters into spaces, collapse whitespace, strip. -/
def normalize_aggressive (s : String) : String :=
  if s = "" then ""
  else
    ⟨pyStrip (collapseWS ((remGen tryAlts false (s.data.map pyUpperC)).map
      (fun c => if c.isUpper ∨ c.isDigit ∨ pyIsSpace c then c else ' ')))⟩

/-- `normalize_name` from `rebuild_normalization_map_v2.py`: clean, uppercase,
delete non-`[A-Z0-9\s]` characters, collapse/strip, delete the v2 suffix
tokens at word boundaries, collapse/strip again. -/
def normalize_name (s : String) : String :=
  let u := (clean_name s).data.map pyUpperC
  let p := u.filter fun c => c.isUpper || c.isDigit || pyIsSpace c
  let q := pyStrip (collapseWS p)
  ⟨pyStrip (collapseWS (remGen tryPlainV2 false q))⟩

/-! ### Dictionary and set helpers (Python `dict` / `set` semantics) -/

/-- Lookup in an insertion-ordered association list. -/
def alookup {α β : Type} [DecidableEq α] (m : List (α × β)) (k : α) : Option β :=
  (m.find? fun p => p.1 = k).map (·.2)

/-- Python `dict` assignment: overwrite in place if the key is present
(keeping its first-insertion position), else append. -/
def aupsert {α β : Type} [DecidableEq α] (m : List (α × β)) (k : α) (v : β) :
    List (α × β) :=
  if (alookup m k).isSome then m.map fun p => if p.1 = k then (k, v) else p
  else m ++ [(k, v)]

/-- Guarded insertion (`if key not in d: d[key] = v`): first write wins. -/
def ainsertIfAbsent {α β : Type} [DecidableEq α] (m : List (α × β)) (k : α) (v : β) :
    List (α × β) :=
  if (alookup m k).isSome then m else m ++ [(k, v)]

/-! ### Invalid-name classifier (`rebuild_normalization_deterministic.py`) -/

def MIN_NAME_LENGTH : Nat := 5

def MIN_ALPHA_CHARS : Nat := 3

/-- The fixed garbage patterns of `is_invalid_name`, each anchored at both
ends and matched case-insensitively: a bare legal suffix with optional dot,
a pure digit string, or a string with no ASCII letters at all. -/
def isGarbage (name : String) : Bool :=
  (["INC", "LLC", "CORP", "CO", "LTD",
    "INC.", "LLC.", "CORP.", "CO.", "LTD."].contains (pyUpperS name)) ||
  (!name.isEmpty && name.data.all Char.isDigit) ||
  (name.data.all fun c => !c.isAlpha)

/-- `is_invalid_name`: `some reason` when the name is flagged, `none` when it
is considered valid.  The checks run in the source's order, first match
wins. -/
def is_invalid_name (name : String) : Option String :=
  if name = "" then some "empty"
  else if name.length < MIN_NAME_LENGTH then
    some ("too_short (" ++ toString name.length ++ " chars)")
  else if (name.data.countP fun c => c.isAlpha) < MIN_ALPHA_CHARS then
    some ("too_few_letters (" ++ toString (name.data.countP fun c => c.isAlpha) ++ ")")
  else if (match name.data with | [] => false | c :: _ => c.isLower) then
    some "starts_lowercase (OCR truncation)"
  else if isGarbage name then some "garbage_pattern"
  else none

/-! ### Manual override tables -/

/-- `MANUAL_OVERRIDES` of `rebuild_normalization_deterministic.py`. -/
def MANUAL_OVERRIDES_DET : List (String × String) :=
  [("WASTE PRO", "Waste Pro"),
   ("Waste Pro", "Waste Pro"),
   ("WastePro", "Waste Pro"),
   ("WASTE PRO USA", "Waste Pro"),
   ("WASTE PRO Caring For Our Communities", "Waste Pro"),
   ("REPUBLIC SERVICES", "Republic Services"),
   ("Republic Services", "Republic Services"),
   ("WASTE MANAGEMENT", "Waste Management"),
   ("Waste Management", "Waste Management"),
   ("CASELLA", "Casella Waste"),
   ("Casella", "Casella Waste"),
   ("casella", "Casella Waste"),
   ("CASELLA WASTE", "Casella Waste"),
   ("CASELLA WASTE SYSTEMS", "Casella Waste"),
   ("GFL", "GFL Environmental"),
   ("GFL Environmental", "GFL Environmental"),
   ("GFL ENVIRONMENTAL", "GFL Environmental"),
   ("RUMPKE", "Rumpke"),
   ("Rumpke", "Rumpke"),
   ("Flood Brothers", "Flood Brothers Disposal"),
   ("FLOOD BROTHERS", "Flood Brothers Disposal"),
   ("MERIDIAN WASTE", "Meridian Waste"),
   ("Meridian Waste", "Meridian Waste"),
   ("DELTA WASTE SOLUTIONS", "Delta Waste Solutions"),
   ("1-800-GOT-JUNK", "1-800-GOT-JUNK National"),
   ("1-800-Got-Junk", "1-800-GOT-JUNK National"),
   ("1-800-Got Junk", "1-800-GOT-JUNK National"),
   ("1-800 Got Junk", "1-800-GOT-JUNK National"),
   ("1-800-GOT-JUNK?", "1-800-GOT-JUNK National"),
   ("1-800-Got Junk Commercial Services (USA) LLC", "1-800-GOT-JUNK National")]

/-- `MANUAL_OVERRIDES` of `rebuild_normalization_map_v2.py`. -/
def MANUAL_OVERRIDES_V2 : List (String × String) :=
  [("Anytime", "Anytime Waste Systems"),
   ("ANYTIME", "Anytime Waste Systems"),
   ("casella", "Casella Waste"),
   ("Casella", "Casella Waste"),
   ("CASELLA", "Casella Waste"),
   ("ROBINSON", "Robinson Waste"),
   ("Robinson", "Robinson Waste"),
   ("Friedman", "Friedman Industries Inc."),
   ("FRIEDMAN", "Friedman Industries Inc."),
   ("Fruednab", "Friedman Industries Inc."),
   ("PRIORITY", "Priority Waste"),
   ("PPRIORITY", "Priority Waste"),
   ("Priority", "Priority Waste"),
   ("Walters", "Walters Services"),
   ("WALTERS", "Walters Services"),
   ("Best Way", "Bestway Disposal"),
   ("BEST WAY", "Bestway Disposal"),
   ("ROCKY RIDGE", "Rocky Ridge Sanitation"),
   ("HDS HOMEWOOD", "Homewood Disposal"),
   ("Flood Brothers", "Flood Brothers Disposal"),
   ("FLOOD BROTHERS", "Flood Brothers Disposal"),
   ("1-800-Got Junk Commercial Services (USA) LLC", "1-800-GOT-JUNK National"),
   ("WASTE PRO Caring For Our Communities", "Waste Pro"),
   ("Fusion Waste and Recycling", "Fusion Waste & Recycling"),
   ("J & J SERVICES, INC.", "J & J Services Inc."),
   ("J & J Services, Inc.", "J & J Services Inc."),
   ("ash Franchise Partners, LLC", "Trash Franchise Partners LLC")]

/-! ### Deterministic reference-index builders and cascade -/

/-- `clean_lookup_exact`: normalized exact key to first clean vendor observed
with that key (first write wins, empty keys skipped). -/
def buildExactMap (cl : List String) : List (String × String) :=
  cl.foldl
    (fun m v =>
      let k := normalize_for_lookup v
      if k ≠ "" then ainsertIfAbsent m k v else m)
    []

/-- `clean_lookup_aggressive`: aggressive key to first clean vendor observed
with that key (first write wins, empty keys skipped). -/
def buildAggMap (cl : List String) : List (String × String) :=
  cl.foldl
    (fun m v =>
      let k := normalize_aggressive v
      if k ≠ "" then ainsertIfAbsent m k v else m)
    []

/-- `location_vendor_lookup`: `(normalized location, vendor key)` to clean
vendor, populated for both exact and aggressive vendor keys.  Plain `dict`
assignment: last write wins. -/
def buildLocVendorLookup (lt : List (String × List String)) :
    List ((String × String) × String) :=
  lt.foldl
    (fun m p =>
      let ln := normalize_for_lookup p.1
      p.2.foldl
        (fun m v =>
          let ke := normalize_for_lookup v
          let ka := normalize_aggressive v
          let m1 := if ke ≠ "" then aupsert m (ln, ke) v else m
          if ka ≠ "" then aupsert m1 (ln, ka) v else m1)
        m)
    []

/-- `cp_to_location`: normalized location key to location name (plain `dict`
assignment: when two locations share a key, the later one wins). -/
def buildCpToLocation (lt : List (String × List String)) : List (String × String) :=
  lt.foldl (fun m p => aupsert m (normalize_for_lookup p.1) p.1) []

/-- Result of resolving one messy vendor name in the deterministic script:
a committed match (vendor, method, and the location recorded in
`match_details`, when any), an invalid-name flag, or the unmatched report
row (which carries both normalized forms). -/
inductive DetRes where
  | matched (vendor method : String) (location : Option String)
  | invalid (reason : String)
  | unmatched (normalized aggressive : String)
deriving DecidableEq, Repr

/-- The location-constrained loop of the deterministic script: walk this
vendor's invoice counterparties in file order; for the first one whose
normalized form is a known location key, try the exact and then the
aggressive vendor key inside that location; stop on the first hit. -/
def locLoop (lvl : List ((String × String) × String)) (cpl : List (String × String))
    (messyNorm messyAgg : String) : List String → Option (String × String × String)
  | [] => none
  | cp :: rest =>
    match alookup cpl (normalize_for_lookup cp) with
    | none => locLoop lvl cpl messyNorm messyAgg rest
    | some location =>
      let ln := normalize_for_lookup location
      match alookup lvl (ln, messyNorm) with
      | some v => some (v, "location_exact", location)
      | none =>
        match alookup lvl (ln, messyAgg) with
        | some v => some (v, "location_normalized", location)
        | none => locLoop lvl cpl messyNorm messyAgg rest

/-- The per-name cascade of `rebuild_normalization_deterministic.py`
(lines 227-315): manual override, invalid-name classifier, exact lookup,
aggressive lookup, location-constrained lookup, otherwise unmatched.
`rows` are the cleaned `(vendor_name, counterparty)` invoice pairs in file
order. -/
def matchNameDet (cl : List String) (lt : List (String × List String))
    (rows : List (String × String)) (messy : String) : DetRes :=
  match alookup MANUAL_OVERRIDES_DET messy with
  | some target => .matched target "manual_override" none
  | none =>
    match is_invalid_name messy with
    | some reason => .invalid reason
    | none =>
      let messyNorm := normalize_for_lookup messy
      match alookup (buildExactMap cl) messyNorm with
      | some v => .matched v "exact_match" none
      | none =>
        let messyAgg := normalize_aggressive messy
        match alookup (buildAggMap cl) messyAgg with
        | some v => .matched v "normalized_match" none
        | none =>
          match locLoop (buildLocVendorLookup lt) (buildCpToLocation lt)
              messyNorm messyAgg ((rows.filter fun r => r.1 = messy).map (·.2)) with
          | some (v, meth, loc) => .matched v meth (some loc)
          | none => .unmatched messyNorm messyAgg

/-! ### Fuzzy-search primitives (rapidfuzz `process.extractOne` model) -/

/-- `process.extractOne(query, choices, scorer)`: `none` on an empty choice
list, otherwise the first choice attaining the maximal score (later choices
replace the incumbent only on a strictly larger score, rapidfuzz's tie
behaviour). -/
def extractOne (scorer : String → String → Nat) (q : String) :
    List String → Option (String × Nat)
  | [] => none
  | c :: cs =>
    some (cs.foldl
      (fun best x => if best.2 < scorer q x then (x, scorer q x) else best)
      (c, scorer q c))

/-- Python string containment `needle in hay` on character lists. -/
def strContains (hay needle : List Char) : Bool :=
  if needle.isPrefixOf hay then true
  else
    match hay with
    | [] => false
    | _ :: t => strContains t needle

/-- Python `str.split()` with no arguments: split on whitespace runs,
dropping empty fragments. -/
def pySplitGo (cur : List Char) : List Char → List (List Char)
  | [] => if cur.isEmpty then [] else [cur.reverse]
  | c :: cs =>
    if pyIsSpace c then
      if cur.isEmpty then pySplitGo [] cs else cur.reverse :: pySplitGo [] cs
    else pySplitGo (c :: cur) cs

def pySplit (l : List Char) : List (List Char) := pySplitGo [] l

/-- Stable insertion for a strict order: `x` is placed before the first
element it is strictly below, hence after all earlier elements with an equal
key — the stability of Python's `list.sort`. -/
def insertStable {α : Type} (lt : α → α → Bool) (x : α) : List α → List α
  | [] => [x]
  | y :: ys => if lt x y then x :: y :: ys else y :: insertStable lt x ys

/-- Stable insertion sort (model of Python's stable `list.sort`). -/
def sortStable {α : Type} (lt : α → α → Bool) (l : List α) : List α :=
  l.foldl (fun acc x => insertStable lt x acc) []

/-! ### `rebuild_normalization_map_v2.py` matching helpers -/

/-- The candidate `dict` comprehension of `find_best_match`
(`candidates_norm`): normalized key to vendor, keeping the last vendor per
key at the key's first-insertion position, skipping empty keys. -/
def candsNormOf (cands : List String) : List (String × String) :=
  cands.foldl
    (fun m v => if normalize_name v ≠ "" then aupsert m (normalize_name v) v else m) []

/-- `find_best_match(messy_name, candidate_vendors, threshold)`: exact
(case-insensitive) match, normalized exact match, token-sort fuzzy at
`tTok`, then partial-ratio fuzzy at `tPart` (hardcoded 90 in the source,
lifted to a parameter).  Returns the Python pair `(vendor-or-None, score)`.
The candidate `dict` comprehension keeps the last vendor per normalized key
at the key's first-insertion position. -/
def find_best_match (scT scP : String → String → Nat) (tTok tPart : Nat)
    (messy : String) (cands : List String) : Option String × Nat :=
  if cands.isEmpty then (none, 0)
  else
    match cands.find? fun v => pyUpperS (clean_name v) = pyUpperS (clean_name messy) with
    | some v => (some v, 100)
    | none =>
      match cands.find? fun v => normalize_name v = normalize_name messy with
      | some v => (some v, 100)
      | none =>
        if (candsNormOf cands).isEmpty then (none, 0)
        else
          match extractOne scT (normalize_name messy) ((candsNormOf cands).map (·.1)) with
          | some (best, s) =>
            if tTok ≤ s then (alookup (candsNormOf cands) best, s)
            else
              match extractOne scP (normalize_name messy) ((candsNormOf cands).map (·.1)) with
              | some (bp, sp) =>
                if tPart ≤ sp then (alookup (candsNormOf cands) bp, sp) else (none, 0)
              | none => (none, 0)
          | none => (none, 0)

/-- `find_location_match(counterparty, location_names, threshold)`: exact
normalized match first, then token-sort fuzzy accepted at `t`, mapping the
winning normalized form back to the first location carrying it. -/
def find_location_match (scT : String → String → Nat) (t : Nat) (cp : String)
    (locNames : List String) : Option String :=
  match locNames.find? fun loc => normalize_name loc = normalize_name cp with
  | some loc => some loc
  | none =>
    match extractOne scT (normalize_name cp) (locNames.map normalize_name) with
    | some (best, s) =>
      if t ≤ s then locNames.find? fun loc => normalize_name loc = best else none
    | none => none

/-- `try_partial_name_match(messy_name, clean_vendor_list, min_length)`:
collect vendors whose uppercase form starts with the messy name (score 95)
or whose first word contains it (score 90), then return the head of the
stable sort by `(100 - score, length)` — best score first, then the
syntactically shortest vendor. -/
def try_partial_name_match (messy : String) (cl : List String) (minLen : Nat) :
    Option String × Nat :=
  let mc := clean_name messy
  let mu := pyUpperS mc
  if mc.length < minLen then (none, 0)
  else
    let hits := cl.foldl
      (fun acc v =>
        let vu := pyUpperS v
        if mu.data.isPrefixOf vu.data then acc ++ [(v, 95)]
        else if (match pySplit vu.data with
                 | [] => false
                 | w :: _ => strContains w mu.data) then acc ++ [(v, 90)]
        else acc)
      []
    match sortStable
        (fun a b : String × Nat =>
          (100 - a.2 < 100 - b.2) ||
          (100 - a.2 = 100 - b.2 && a.1.length < b.1.length))
        hits with
    | [] => (none, 0)
    | m :: _ => (some m.1, m.2)

/-! ### `rebuild_normalization_map_v2.py` cascade and orchestrator -/

/-- The v2 thresholds, lifted from the hardcoded constants into a
configuration (source defaults: location fuzzy 80, constrained 65,
global 80, partial-ratio 90), together with the two abstract scorers. -/
structure V2Cfg where
  scT : String → String → Nat
  scP : String → String → Nat
  tLoc : Nat
  tCon : Nat
  tGlob : Nat
  tPart : Nat

/-- Python truthiness of the `(vendor-or-None, score)` pair's first
component: `None` and the empty string are falsy. -/
def truthyV (r : Option String × Nat) : Bool :=
  match r.1 with
  | none => false
  | some v => !(v = "")

/-- The `cp_to_location` computation of the v2 script (memoised per distinct
counterparty in the source; the cache is transparent). -/
def v2LocMatch (cfg : V2Cfg) (lt : List (String × List String)) (cp : String) :
    Option String :=
  find_location_match cfg.scT cfg.tLoc cp (lt.map (·.1))

/-- Stage 2 of the v2 cascade: constrained `find_best_match` over the
resolved location's vendor set (`if location and location in
location_to_vendors`). -/
def v2Stage2 (cfg : V2Cfg) (lt : List (String × List String)) (mvc cp : String) :
    Option String × Nat :=
  match v2LocMatch cfg lt cp with
  | some location =>
    if location = "" then (none, 0)
    else
      match alookup lt location with
      | some cands => find_best_match cfg.scT cfg.scP cfg.tCon cfg.tPart mvc cands
      | none => (none, 0)
  | none => (none, 0)

/-- The per-row cascade of `rebuild_normalization_map_v2.py` (lines 239-296):
manual override, location-constrained match, global match, partial-name
match; `some (vendor, score, method)` when a stage produced a truthy vendor.
-/
def v2MatchRow (cfg : V2Cfg) (cl : List String) (lt : List (String × List String))
    (vn cp : String) : Option (String × Nat × String) :=
  let mvc := clean_name vn
  match alookup MANUAL_OVERRIDES_V2 mvc with
  | some target => some (target, 100, "manual")
  | none =>
    let r2 := v2Stage2 cfg lt mvc cp
    if truthyV r2 then some (r2.1.getD "", r2.2, "constrained")
    else
      let r3 := find_best_match cfg.scT cfg.scP cfg.tGlob cfg.tPart mvc cl
      if truthyV r3 then some (r3.1.getD "", r3.2, "global")
      else
        let r4 := try_partial_name_match mvc cl 4
        if truthyV r4 then some (r4.1.getD "", r4.2, "partial")
        else none

/-- One iteration of the v2 build loop: skip rows whose cleaned vendor name
is already committed; otherwise run the cascade and, on success, commit the
cleaned name (and the original spelling, when different). -/
def v2Step (cfg : V2Cfg) (cl : List String) (lt : List (String × List String))
    (m : List (String × String)) (row : String × String) : List (String × String) :=
  let mvc := clean_name row.1
  if (alookup m mvc).isSome then m
  else
    match v2MatchRow cfg cl lt row.1 row.2 with
    | some (v, _, _) =>
      let m1 := aupsert m mvc v
      if row.1 ≠ mvc then aupsert m1 row.1 v else m1
    | none => m

/-- The v2 normalization map: fold of `v2Step` over the invoice rows
`(vendor_name, counterparty)` in file order. -/
def v2BuildMap (cfg : V2Cfg) (cl : List String) (lt : List (String × List String))
    (rows : List (String × String)) : List (String × String) :=
  rows.foldl (v2Step cfg cl lt) []

/-! ### `update_dashboard.py` matcher -/

/-- Replace every (non-overlapping, left-to-right) occurrence of the
two-character sequence `a b` by a single space — Python
`s.replace(ab, ' ')` for a two-character needle. -/
def replacePair (a b : Char) : List Char → List Char
  | [] => []
  | [c] => [c]
  | c :: d :: cs =>
    if c = a ∧ d = b then ' ' :: replacePair a b cs
    else c :: replacePair a b (d :: cs)

/-- `clean_vendor_name` from `update_dashboard.py`: the literal two-character
sequences backslash-n and backslash-r, then real newlines and carriage
returns, become spaces; whitespace is collapsed and stripped. -/
def clean_vendor_name (s : String) : String :=
  let a := replacePair '\\' 'n' s.data
  let b := replacePair '\\' 'r' a
  let c := b.map fun ch => if ch = '\n' then ' ' else if ch = '\r' then ' ' else ch
  ⟨pyStrip (collapseWS c)⟩

/-- `re.sub(r'(\d+)', r' \1 ', s)`: surround every maximal digit run with
spaces.  `prevD` records whether the previous character was a digit. -/
def spaceDigitsGo (prevD : Bool) : List Char → List Char
  | [] => if prevD then [' '] else []
  | c :: cs =>
    if c.isDigit then
      if prevD then c :: spaceDigitsGo true cs else ' ' :: c :: spaceDigitsGo true cs
    else
      if prevD then ' ' :: c :: spaceDigitsGo false cs else c :: spaceDigitsGo false cs

/-- `normalize_for_match` from `update_dashboard.py`: non-word, non-space
characters to spaces; digit runs spaced out; whitespace collapsed and
stripped; lowercased. -/
def normalize_for_match (s : String) : String :=
  let a := s.data.map fun c => if isWordChar c || pyIsSpace c then c else ' '
  ⟨(pyStrip (collapseWS (spaceDigitsGo false a))).map pyLowerC⟩

/-- The dashboard's reference data: the cleaned canonical vendor list and the
location-to-vendor-set relation (`location_vendors`; Python `set` values
modelled as duplicate-free lists). -/
structure DashEnv where
  clean_vendors : List String
  location_vendors : List (String × List String)

/-- `clean_vendors_lower`: the dict comprehension mapping each vendor's
lowercase form to the vendor (last write wins on collisions). -/
def cleanVendorsLower (cl : List String) : List (String × String) :=
  cl.foldl (fun m v => aupsert m (pyLowerS v) v) []

/-- The candidate-resolution block of `match_vendor` (lines 76-88): requires
a present, non-empty counterparty; direct `location_vendors` hit first, then
the fuzzy location path at threshold `tLocD` (the `location_cache` is
transparent); an empty candidate set is falsy in Python and yields `none`. -/
def resolveCandidates (scT : String → String → Nat) (tLocD : Nat) (env : DashEnv)
    (cp : Option String) : Option (List String) :=
  match cp with
  | none => none
  | some c =>
    if c = "" then none
    else
      let fuzzyPath : Option (List String) :=
        match extractOne scT c (env.location_vendors.map (·.1)) with
        | some (loc, s) =>
          if tLocD ≤ s then
            match alookup env.location_vendors loc with
            | some cands => if cands.isEmpty then none else some cands
            | none => none
          else none
        | none => none
      match alookup env.location_vendors c with
      | some cands => if cands.isEmpty then fuzzyPath else some cands
      | none => fuzzyPath

/-- `match_vendor` from `update_dashboard.py` with its four hardcoded
thresholds lifted to parameters (source defaults 75, 35, 50, 80).  Stage 1
is the location-based path: a single-vendor location is returned directly;
multiple vendors are matched fuzzily against the candidate set only.
Stage 2 is the direct path: exact lowercase lookup, normalized exact scan,
strict global fuzzy.  The `vendor_cache` is transparent.  The result is a
vendor name or the literal sentinel string Unmatched. -/
def match_vendorT (scT scP : String → String → Nat) (tLocD tCand tPartD tGlobD : Nat)
    (env : DashEnv) (cp : Option String) (rawVn : String) : String :=
  let vn := clean_vendor_name rawVn
  let stage1 : Option String :=
    match resolveCandidates scT tLocD env cp with
    | some cands =>
      match cands with
      | [v] => some v
      | _ =>
        if vn ≠ "" then
          match extractOne scT vn cands with
          | some (v, s) =>
            if tCand ≤ s then some v
            else
              match extractOne scP vn cands with
              | some (v2, s2) => if tPartD ≤ s2 then some v2 else none
              | none => none
          | none => none
        else none
    | none => none
  match stage1 with
  | some v => v
  | none =>
    if vn ≠ "" then
      match alookup (cleanVendorsLower env.clean_vendors) (pyLowerS vn) with
      | some v => v
      | none =>
        let vnNorm := normalize_for_match vn
        match env.clean_vendors.find? fun c => normalize_for_match c = vnNorm with
        | some v => v
        | none =>
          match extractOne scT vn env.clean_vendors with
          | some (v, s) => if tGlobD ≤ s then v else "Unmatched"
          | none => "Unmatched"
    else "Unmatched"

/-- `match_vendor` at the source's thresholds. -/
def match_vendor (scT scP : String → String → Nat) (env : DashEnv)
    (cp : Option String) (rawVn : String) : String :=
  match_vendorT scT scP 75 35 50 80 env cp rawVn

/-! ### Helper lemmas about the dictionary model and `extractOne` -/

theorem alookup_cons {α β : Type} [DecidableEq α] (p : α × β) (m : List (α × β)) (k : α) :
    alookup (p :: m) k = if p.1 = k then some p.2 else alookup m k := by
  unfold alookup
  rw [List.find?_cons]
  by_cases h : p.1 = k <;> simp [h]

theorem alookup_mem {α β : Type} [DecidableEq α] {m : List (α × β)} {k : α} {v : β}
    (h : alookup m k = some v) : (k, v) ∈ m := by
  induction m with
  | nil => simp [alookup] at h
  | cons p m ih =>
    rw [alookup_cons] at h
    by_cases hpk : p.1 = k
    · rw [if_pos hpk] at h
      have hv : v = p.2 := by simpa using h.symm
      subst hv
      have hp : (k, p.2) = p := by
        cases p
        simp_all
      rw [hp]
      exact List.mem_cons_self p m
    · rw [if_neg hpk] at h
      exact List.mem_cons_of_mem _ (ih h)

theorem aupsert_mem {α β : Type} [DecidableEq α] {m : List (α × β)} {k : α} {v : β}
    {p : α × β} (h : p ∈ aupsert m k v) : p ∈ m ∨ p = (k, v) := by
  unfold aupsert at h
  split at h
  · rcases List.mem_map.mp h with ⟨q, hq, he⟩
    by_cases hqk : q.1 = k
    · right
      rw [if_pos hqk] at he
      exact he.symm
    · left
      rw [if_neg hqk] at he
      exact he ▸ hq
  · rcases List.mem_append.mp h with h | h
    · exact Or.inl h
    · right
      simpa using h

theorem ainsertIfAbsent_mem {α β : Type} [DecidableEq α] {m : List (α × β)} {k : α}
    {v : β} {p : α × β} (h : p ∈ ainsertIfAbsent m k v) : p ∈ m ∨ p = (k, v) := by
  unfold ainsertIfAbsent at h
  split at h
  · exact Or.inl h
  · rcases List.mem_append.mp h with h | h
    · exact Or.inl h
    · right
      simpa using h

theorem alookup_map_upd_self {α β : Type} [DecidableEq α] (m : List (α × β)) (k : α)
    (v : β) (h : (alookup m k).isSome) :
    alookup (m.map fun p => if p.1 = k then (k, v) else p) k = some v := by
  induction m with
  | nil => simp [alookup] at h
  | cons p m ih =>
    rw [alookup_cons] at h
    rw [List.map_cons, alookup_cons]
    by_cases hpk : p.1 = k
    · rw [if_pos hpk]
      simp
    · rw [if_neg hpk, if_neg hpk]
      apply ih
      simpa [hpk] using h

theorem alookup_map_upd_ne {α β : Type} [DecidableEq α] (m : List (α × β)) (k n : α)
    (v : β) (hnk : n ≠ k) :
    alookup (m.map fun p => if p.1 = k then (k, v) else p) n = alookup m n := by
  induction m with
  | nil => rfl
  | cons p m ih =>
    rw [List.map_cons, alookup_cons, alookup_cons]
    by_cases hpk : p.1 = k
    · rw [if_pos hpk]
      have h1 : ¬(k, v).1 = n := fun h => hnk h.symm
      have h2 : ¬p.1 = n := by
        rw [hpk]
        exact fun h => hnk h.symm
      rw [if_neg h1, if_neg h2]
      exact ih
    · rw [if_neg hpk]
      by_cases hpn : p.1 = n
      · simp [hpn]
      · rw [if_neg hpn, if_neg hpn]
        exact ih

theorem alookup_append {α β : Type} [DecidableEq α] (m m2 : List (α × β)) (k : α) :
    alookup (m ++ m2) k =
      match alookup m k with
      | some v => some v
      | none => alookup m2 k := by
  induction m with
  | nil => simp [alookup]
  | cons p m ih =>
    rw [List.cons_append, alookup_cons, alookup_cons]
    by_cases hpk : p.1 = k
    · simp [hpk]
    · simpa [hpk] using ih

theorem alookup_aupsert_self {α β : Type} [DecidableEq α] (m : List (α × β)) (k : α)
    (v : β) : alookup (aupsert m k v) k = some v := by
  unfold aupsert
  split
  · exact alookup_map_upd_self m k v (by assumption)
  · rename_i h
    rw [alookup_append]
    rw [Option.not_isSome_iff_eq_none.mp h]
    simp [alookup_cons]

theorem alookup_aupsert_ne {α β : Type} [DecidableEq α] (m : List (α × β)) (k n : α)
    (v : β) (hnk : n ≠ k) : alookup (aupsert m k v) n = alookup m n := by
  unfold aupsert
  split
  · exact alookup_map_upd_ne m k n v hnk
  · rw [alookup_append]
    cases h : alookup m n with
    | some w => rfl
    | none =>
      rw [alookup_cons, if_neg (fun hh => hnk (Eq.symm hh))]
      rfl

theorem extractOne_fold_mem (sc : String → String → Nat) (q : String) :
    ∀ (cs : List String) (b : String × Nat),
      (cs.foldl (fun best x => if best.2 < sc q x then (x, sc q x) else best) b).1 = b.1 ∨
      (cs.foldl (fun best x => if best.2 < sc q x then (x, sc q x) else best) b).1 ∈ cs := by
  intro cs
  induction cs with
  | nil => intro b; exact Or.inl rfl
  | cons x xs ih =>
    intro b
    simp only [List.foldl_cons]
    by_cases hc : b.2 < sc q x
    · rw [if_pos hc]
      rcases ih (x, sc q x) with h | h
      · right
        rw [h]
        exact List.mem_cons_self x xs
      · exact Or.inr (List.mem_cons_of_mem x h)
    · rw [if_neg hc]
      rcases ih b with h | h
      · exact Or.inl h
      · exact Or.inr (List.mem_cons_of_mem x h)

theorem extractOne_mem {sc : String → String → Nat} {q : String} {l : List String}
    {v : String} {s : Nat} (h : extractOne sc q l = some (v, s)) : v ∈ l := by
  cases l with
  | nil => simp [extractOne] at h
  | cons c cs =>
    simp only [extractOne, Option.some.injEq] at h
    have h1 : (cs.foldl (fun best x => if best.2 < sc q x then (x, sc q x) else best)
        (c, sc q c)).1 = v := by rw [h]
    rcases extractOne_fold_mem sc q cs (c, sc q c) with hm | hm
    · rw [h1] at hm
      exact hm ▸ List.mem_cons_self c cs
    · rw [h1] at hm
      exact List.mem_cons_of_mem c hm

/-! ### Claim C6 — classifier cases -/

/-- C6 counterexample: the claim says `classify("123")` yields
`garbage_pattern`, but the length check runs first, so the code flags
`"123"` as too short. -/
theorem C6_counterexample :
    is_invalid_name "123" = some "too_short (3 chars)" ∧
    is_invalid_name "123" ≠ some "garbage_pattern" := by
  exact ⟨rfl, by decide⟩

/-- C6 (amended): with the default thresholds and the rules checked in the
source order (first match wins), the classifier returns `empty` on `""`,
too-short on `"AB"`, too-short (not `garbage_pattern`, which the earlier
length rule preempts) on `"123"`, `starts_lowercase` on `"waste"`, and
valid on `"Acme Disposal"`. -/
theorem C6_classifier_cases :
    is_invalid_name "" = some "empty" ∧
    is_invalid_name "AB" = some "too_short (2 chars)" ∧
    is_invalid_name "123" = some "too_short (3 chars)" ∧
    is_invalid_name "waste" = some "starts_lowercase (OCR truncation)" ∧
    is_invalid_name "Acme Disposal" = none := by
  exact ⟨rfl, rfl, rfl, rfl, rfl⟩

/-! ### Claim C2 — override precedence -/

/-- C2: a raw name present verbatim as an override key resolves to that
override's target regardless of the reference index: in the v2 cascade with
score 100 and method `manual` for any reference data and thresholds, and in
the deterministic cascade with method `manual_override` for any reference
data and rows, with no validity requirement on the name (the classifier is
only consulted after the override stage). -/
theorem C2_override_precedence :
    (∀ (cfg : V2Cfg) (cl : List String) (lt : List (String × List String))
        (vn cp target : String),
      alookup MANUAL_OVERRIDES_V2 (clean_name vn) = some target →
      v2MatchRow cfg cl lt vn cp = some (target, 100, "manual")) ∧
    (∀ (cl : List String) (lt : List (String × List String))
        (rows : List (String × String)) (name target : String),
      alookup MANUAL_OVERRIDES_DET name = some target →
      matchNameDet cl lt rows name = .matched target "manual_override" none) := by
  constructor
  · intro cfg cl lt vn cp target h
    simp only [v2MatchRow, h]
  · intro cl lt rows name target h
    simp only [matchNameDet, h]

/-- Witness for C2 at the override key `casella` — a name the invalid-name
classifier would reject as lowercase-initial, showing the override wins
before the classifier is consulted. -/
theorem C2_override_precedence_witness :
    v2MatchRow ⟨fun _ _ => 0, fun _ _ => 0, 80, 65, 80, 90⟩ [] [] "casella" "X" =
      some ("Casella Waste", 100, "manual") ∧
    matchNameDet [] [] [] "casella" = .matched "Casella Waste" "manual_override" none ∧
    is_invalid_name "casella" = some "starts_lowercase (OCR truncation)" :=
  ⟨C2_override_precedence.1 ⟨fun _ _ => 0, fun _ _ => 0, 80, 65, 80, 90⟩ [] [] "casella"
      "X" "Casella Waste" rfl,
   C2_override_precedence.2 [] [] [] "casella" "Casella Waste" rfl,
   rfl⟩

/-! ### Claim C3 — single-vendor location -/

/-- C3: when the counterparty resolves (directly or fuzzily) to a location
whose candidate set is a single vendor, `match_vendor` returns that vendor
for every raw vendor name, independent of any textual similarity. -/
theorem C3_single_vendor_location :
    ∀ (scT scP : String → String → Nat) (env : DashEnv) (cp : Option String)
      (rawVn v : String),
      resolveCandidates scT 75 env cp = some [v] →
      match_vendor scT scP env cp rawVn = v := by
  intro scT scP env cp rawVn v h
  simp only [match_vendor, match_vendorT, h]

/-- Witness for C3: the single-vendor location Site A resolves the textually
unrelated name `ZZZ TOTALLY DIFFERENT` to its only vendor. -/
theorem C3_single_vendor_location_witness :
    resolveCandidates (fun _ _ => 0) 75 ⟨["Acme Disposal"], [("Site A", ["Acme Disposal"])]⟩
      (some "Site A") = some ["Acme Disposal"] ∧
    match_vendor (fun _ _ => 0) (fun _ _ => 0)
      ⟨["Acme Disposal"], [("Site A", ["Acme Disposal"])]⟩ (some "Site A")
      "ZZZ TOTALLY DIFFERENT" = "Acme Disposal" :=
  ⟨rfl,
   C3_single_vendor_location (fun _ _ => 0) (fun _ _ => 0)
     ⟨["Acme Disposal"], [("Site A", ["Acme Disposal"])]⟩ (some "Site A")
     "ZZZ TOTALLY DIFFERENT" "Acme Disposal" rfl⟩

/-! ### Claim C5 — canonical vendors resolve exactly to themselves -/

/-- C5 counterexample: with canonical list `["ACME ALPHA", "Acme Alpha"]`
the two entries share the exact key `ACME ALPHA`; first write wins, so
resolving the exact (already clean) string `Acme Alpha` yields the shadowing
first entry `ACME ALPHA`, not `Acme Alpha` itself — the claim's universal
statement fails for shadowed vendors. -/
theorem C5_counterexample :
    matchNameDet ["ACME ALPHA", "Acme Alpha"] [] [] (clean_name "Acme Alpha") =
      .matched "ACME ALPHA" "exact_match" none ∧
    "Acme Alpha" ∈ ["ACME ALPHA", "Acme Alpha"] ∧
    DetRes.matched "ACME ALPHA" "exact_match" none ≠
      DetRes.matched "Acme Alpha" "exact_match" none := by
  exact ⟨rfl, by decide, by decide⟩

/-- C5 (amended): a canonical vendor `V` resolves, via the cascade run on its
whitespace-cleaned spelling, to exactly `V` with method `exact_match`,
provided the exact-key index actually maps that key to `V` (i.e. `V` is the
first canonical entry with its key — shadowed entries resolve to the first
entry instead), the cleaned spelling is not an override key, and it is not
classified invalid. -/
theorem C5_exact_roundtrip :
    ∀ (cl : List String) (lt : List (String × List String))
      (rows : List (String × String)) (V : String),
      alookup MANUAL_OVERRIDES_DET (clean_name V) = none →
      is_invalid_name (clean_name V) = none →
      alookup (buildExactMap cl) (normalize_for_lookup (clean_name V)) = some V →
      matchNameDet cl lt rows (clean_name V) = .matched V "exact_match" none := by
  intro cl lt rows V h1 h2 h3
  simp only [matchNameDet, h1, h2, h3]

/-- Witness for C5 on a one-vendor canonical list. -/
theorem C5_exact_roundtrip_witness :
    matchNameDet ["Waste Haulers Xyz"] [] [] (clean_name "Waste Haulers Xyz") =
      .matched "Waste Haulers Xyz" "exact_match" none :=
  C5_exact_roundtrip ["Waste Haulers Xyz"] [] [] "Waste Haulers Xyz" rfl rfl rfl

/-! ### Claim C9 — purity and row-order independence -/

/-- The row-independent prefix of the deterministic cascade (override,
classifier, exact, aggressive), written from the specification's stage list;
`some` when one of these stages already decides the name. -/
def detStagePre (cl : List String) (messy : String) : Option DetRes :=
  match alookup MANUAL_OVERRIDES_DET messy with
  | some target => some (.matched target "manual_override" none)
  | none =>
    match is_invalid_name messy with
    | some reason => some (.invalid reason)
    | none =>
      match alookup (buildExactMap cl) (normalize_for_lookup messy) with
      | some v => some (.matched v "exact_match" none)
      | none =>
        match alookup (buildAggMap cl) (normalize_aggressive messy) with
        | some v => some (.matched v "normalized_match" none)
        | none => none

theorem detStagePre_sound {cl : List String} {messy : String} {r : DetRes}
    (h : detStagePre cl messy = some r) :
    ∀ (lt : List (String × List String)) (rows : List (String × String)),
      matchNameDet cl lt rows messy = r := by
  intro lt rows
  unfold detStagePre at h
  unfold matchNameDet
  cases h1 : alookup MANUAL_OVERRIDES_DET messy with
  | some t => rw [h1] at h; simp_all
  | none =>
    rw [h1] at h
    cases h2 : is_invalid_name messy with
    | some reason => rw [h2] at h; simp_all
    | none =>
      rw [h2] at h
      cases h3 : alookup (buildExactMap cl) (normalize_for_lookup messy) with
      | some v => rw [h3] at h; simp_all
      | none =>
        rw [h3] at h
        cases h4 : alookup (buildAggMap cl) (normalize_aggressive messy) with
        | some v => rw [h4] at h; simp_all
        | none => rw [h4] at h; simp_all

/-- C9 counterexample: the name `Acme Co` (valid, no override, empty
canonical list) appears with two counterparties whose locations both carry a
key for it; reversing the invoice row order changes both the matched vendor
and the method, so the per-name result is not independent of row order. -/
theorem C9_counterexample :
    matchNameDet [] [("Loc One", ["Acme Co"]), ("Loc Two", ["Acme"])]
      [("Acme Co", "Loc One"), ("Acme Co", "Loc Two")] "Acme Co" =
      .matched "Acme Co" "location_exact" (some "Loc One") ∧
    matchNameDet [] [("Loc One", ["Acme Co"]), ("Loc Two", ["Acme"])]
      (List.reverse [("Acme Co", "Loc One"), ("Acme Co", "Loc Two")]) "Acme Co" =
      .matched "Acme" "location_normalized" (some "Loc Two") ∧
    DetRes.matched "Acme Co" "location_exact" (some "Loc One") ≠
      DetRes.matched "Acme" "location_normalized" (some "Loc Two") := by
  exact ⟨rfl, rfl, by decide⟩

/-- C9 (amended): each distinct name receives exactly one result per run,
and whenever one of the row-independent stages (override, classifier, exact
key, aggressive key) decides a name, that result is a pure function of the
reference data and overrides — identical for any two row orders.  Only the
location-constrained stage can depend on the order in which the name's
invoice rows are encountered. -/
theorem C9_row_order_independence :
    ∀ (cl : List String) (lt : List (String × List String))
      (rows rows' : List (String × String)) (messy : String) (r : DetRes),
      detStagePre cl messy = some r →
      matchNameDet cl lt rows messy = r ∧ matchNameDet cl lt rows' messy = r := by
  intro cl lt rows rows' messy r h
  exact ⟨detStagePre_sound h lt rows, detStagePre_sound h lt rows'⟩

/-- Witness for C9: a name decided by the exact stage yields the same result
for two different row orders. -/
theorem C9_row_order_independence_witness :
    matchNameDet ["Waste Haulers Xyz"] [] [("Waste Haulers Xyz", "A"), ("Waste Haulers Xyz", "B")]
      "Waste Haulers Xyz" = .matched "Waste Haulers Xyz" "exact_match" none ∧
    matchNameDet ["Waste Haulers Xyz"] [] [("Waste Haulers Xyz", "B"), ("Waste Haulers Xyz", "A")]
      "Waste Haulers Xyz" = .matched "Waste Haulers Xyz" "exact_match" none :=
  C9_row_order_independence ["Waste Haulers Xyz"] []
    [("Waste Haulers Xyz", "A"), ("Waste Haulers Xyz", "B")]
    [("Waste Haulers Xyz", "B"), ("Waste Haulers Xyz", "A")]
    "Waste Haulers Xyz" (.matched "Waste Haulers Xyz" "exact_match" none) rfl

/-! ### Claim C1 — actual stage order of the cascades -/

/-- The location-based stage of `match_vendor` (stage 1 in the source),
written out as a standalone function of the cleaned vendor name. -/
def dashLocStage (scT scP : String → String → Nat) (tLocD tCand tPartD : Nat)
    (env : DashEnv) (cp : Option String) (vn : String) : Option String :=
  match resolveCandidates scT tLocD env cp with
  | some cands =>
    match cands with
    | [v] => some v
    | _ =>
      if vn ≠ "" then
        match extractOne scT vn cands with
        | some (v, s) =>
          if tCand ≤ s then some v
          else
            match extractOne scP vn cands with
            | some (v2, s2) => if tPartD ≤ s2 then some v2 else none
            | none => none
        | none => none
      else none
  | none => none

/-- The direct stage of `match_vendor` (stage 2 in the source): exact
lowercase lookup, normalized-exact scan, strict global fuzzy; `none` stands
for the fall-through to Unmatched. -/
def dashDirectStage (scT : String → String → Nat) (tGlobD : Nat) (env : DashEnv)
    (vn : String) : Option String :=
  if vn ≠ "" then
    match alookup (cleanVendorsLower env.clean_vendors) (pyLowerS vn) with
    | some v => some v
    | none =>
      let vnNorm := normalize_for_match vn
      match env.clean_vendors.find? fun c => normalize_for_match c = vnNorm with
      | some v => some v
      | none =>
        match extractOne scT vn env.clean_vendors with
        | some (v, s) => if tGlobD ≤ s then some v else none
        | none => none
  else none

/-- C1 counterexample: in `match_vendor` the location-constrained stage runs
before the exact-key stage, not after it as the claimed order requires: here
the cleaned name `Acme Co` has a successful exact (lowercase) lookup to the
canonical vendor `Acme Co`, yet the cascade returns the single-vendor
location result `Zeta Waste`. -/
theorem C1_counterexample :
    match_vendor (fun _ _ => 0) (fun _ _ => 0)
      ⟨["Acme Co"], [("Main Plant", ["Zeta Waste"])]⟩ (some "Main Plant") "Acme Co" =
      "Zeta Waste" ∧
    alookup (cleanVendorsLower ["Acme Co"]) (pyLowerS (clean_vendor_name "Acme Co")) =
      some "Acme Co" ∧
    ("Zeta Waste" : String) ≠ "Acme Co" := by
  exact ⟨rfl, rfl, by decide⟩

/-- C1 (amended): the dashboard matcher evaluates its stages in the order
location-constrained lookup (single-vendor shortcut, constrained token-sort
fuzzy, constrained partial fuzzy) and then the direct stages (exact
lowercase lookup, normalized-exact scan, global fuzzy), falling through to
the sentinel Unmatched, short-circuiting on the first success; and in the v2
builder the override stage precedes everything and a truthy
location-constrained result is committed before the global and partial
stages are consulted. -/
theorem C1_cascade_order :
    (∀ (scT scP : String → String → Nat) (a b c d : Nat) (env : DashEnv)
        (cp : Option String) (raw v : String),
      dashLocStage scT scP a b c env cp (clean_vendor_name raw) = some v →
      match_vendorT scT scP a b c d env cp raw = v) ∧
    (∀ (scT scP : String → String → Nat) (a b c d : Nat) (env : DashEnv)
        (cp : Option String) (raw v : String),
      dashLocStage scT scP a b c env cp (clean_vendor_name raw) = none →
      dashDirectStage scT d env (clean_vendor_name raw) = some v →
      match_vendorT scT scP a b c d env cp raw = v) ∧
    (∀ (scT scP : String → String → Nat) (a b c d : Nat) (env : DashEnv)
        (cp : Option String) (raw : String),
      dashLocStage scT scP a b c env cp (clean_vendor_name raw) = none →
      dashDirectStage scT d env (clean_vendor_name raw) = none →
      match_vendorT scT scP a b c d env cp raw = "Unmatched") ∧
    (∀ (cfg : V2Cfg) (cl : List String) (lt : List (String × List String))
        (vn cp : String),
      alookup MANUAL_OVERRIDES_V2 (clean_name vn) = none →
      truthyV (v2Stage2 cfg lt (clean_name vn) cp) = true →
      v2MatchRow cfg cl lt vn cp =
        some ((v2Stage2 cfg lt (clean_name vn) cp).1.getD "",
          (v2Stage2 cfg lt (clean_name vn) cp).2, "constrained")) := by
  refine ⟨?_, ?_, ?_, ?_⟩
  · intro scT scP a b c d env cp raw v h
    simp only [match_vendorT]
    unfold dashLocStage at h
    rw [h]
  · intro scT scP a b c d env cp raw v h1 h2
    simp only [match_vendorT]
    unfold dashLocStage at h1
    rw [h1]
    simp only [dashDirectStage] at h2
    repeat' split at h2
    all_goals simp_all
  · intro scT scP a b c d env cp raw h1 h2
    simp only [match_vendorT]
    unfold dashLocStage at h1
    rw [h1]
    simp only [dashDirectStage] at h2
    repeat' split at h2
    all_goals simp_all
  · intro cfg cl lt vn cp h1 h2
    simp only [v2MatchRow, h1, h2, if_true]

/-- Witness for C1: the v2 constrained stage commits (before global/partial)
on a location hit; the dashboard location stage decides before the direct
stage on the counterexample environment. -/
theorem C1_cascade_order_witness :
    v2MatchRow ⟨fun _ _ => 100, fun _ _ => 100, 80, 65, 80, 90⟩ ["Other Vendor"]
      [("Depot", ["Vendor A"])] "Mystery Name" "Depot" =
      some ("Vendor A", 100, "constrained") ∧
    match_vendorT (fun _ _ => 0) (fun _ _ => 0) 75 35 50 80
      ⟨["Acme Co"], [("Main Plant", ["Zeta Waste"])]⟩ (some "Main Plant") "Acme Co" =
      "Zeta Waste" :=
  ⟨C1_cascade_order.2.2.2 ⟨fun _ _ => 100, fun _ _ => 100, 80, 65, 80, 90⟩
      ["Other Vendor"] [("Depot", ["Vendor A"])] "Mystery Name" "Depot" rfl rfl,
   C1_cascade_order.1 (fun _ _ => 0) (fun _ _ => 0) 75 35 50 80
      ⟨["Acme Co"], [("Main Plant", ["Zeta Waste"])]⟩ (some "Main Plant") "Acme Co"
      "Zeta Waste" rfl⟩

/-! ### Claim C10 — totality and the Unmatched sentinel -/

/-- All canonical vendors the dashboard matcher can possibly return: the
clean vendor list together with every location's vendor set. -/
def dashReferenceVendors (env : DashEnv) : List String :=
  env.clean_vendors ++ (env.location_vendors.map (·.2)).flatten

theorem memRefLoc {env : DashEnv} {v : String} {cands : List String}
    (h : ∃ loc, (loc, cands) ∈ env.location_vendors) (hv : v ∈ cands) :
    v ∈ dashReferenceVendors env := by
  rcases h with ⟨loc, hm⟩
  unfold dashReferenceVendors
  refine List.mem_append.mpr (Or.inr ?_)
  refine List.mem_flatten.mpr ⟨cands, ?_, hv⟩
  exact List.mem_map.mpr ⟨(loc, cands), hm, rfl⟩

theorem memRefCl {env : DashEnv} {v : String} (h : v ∈ env.clean_vendors) :
    v ∈ dashReferenceVendors env :=
  List.mem_append.mpr (Or.inl h)

theorem resolve_mem {scT : String → String → Nat} {t : Nat} {env : DashEnv}
    {cp : Option String} {cands : List String}
    (h : resolveCandidates scT t env cp = some cands) :
    ∃ loc, (loc, cands) ∈ env.location_vendors := by
  simp only [resolveCandidates] at h
  repeat' split at h
  all_goals simp_all
  all_goals exact ⟨_, alookup_mem (by assumption)⟩

theorem cleanVendorsLower_fold_mem :
    ∀ (cl : List String) (m : List (String × String)) (p : String × String),
      p ∈ cl.foldl (fun m v => aupsert m (pyLowerS v) v) m → p ∈ m ∨ p.2 ∈ cl := by
  intro cl
  induction cl with
  | nil => intro m p h; exact Or.inl h
  | cons v vs ih =>
    intro m p h
    simp only [List.foldl_cons] at h
    rcases ih (aupsert m (pyLowerS v) v) p h with h2 | h2
    · rcases aupsert_mem h2 with h3 | h3
      · exact Or.inl h3
      · right
        rw [h3]
        exact List.mem_cons_self v vs
    · exact Or.inr (List.mem_cons_of_mem v h2)

theorem cleanVendorsLower_val {cl : List String} {k v : String}
    (h : alookup (cleanVendorsLower cl) k = some v) : v ∈ cl := by
  have hm := alookup_mem h
  rcases cleanVendorsLower_fold_mem cl [] (k, v) hm with h2 | h2
  · simp at h2
  · exact h2

theorem dashLocStage_mem {scT scP : String → String → Nat} {a b c : Nat}
    {env : DashEnv} {cp : Option String} {vn v : String}
    (h : dashLocStage scT scP a b c env cp vn = some v) :
    v ∈ dashReferenceVendors env := by
  unfold dashLocStage at h
  repeat' split at h
  all_goals try simp_all
  all_goals
    first
      | exact memRefLoc (resolve_mem (by assumption)) (by simp_all)
      | exact memRefLoc (resolve_mem (by assumption)) (extractOne_mem (by assumption))

/-- C10: `match_vendor` is total and never null — for every invoice row it
returns either a member of the reference data (the clean vendor list or some
location's vendor set) or the literal sentinel string Unmatched; and a
canonical vendor literally named Unmatched is returned as that same sentinel
string, so a failed match and a vendor named Unmatched are indistinguishable
in the output. -/
theorem C10_total_sentinel :
    (∀ (scT scP : String → String → Nat) (env : DashEnv) (cp : Option String)
        (rawVn : String),
      match_vendor scT scP env cp rawVn = "Unmatched" ∨
      match_vendor scT scP env cp rawVn ∈ dashReferenceVendors env) ∧
    (match_vendor (fun _ _ => 0) (fun _ _ => 0) ⟨["Unmatched"], []⟩ none "Unmatched" =
      "Unmatched" ∧
    "Unmatched" ∈ (⟨["Unmatched"], []⟩ : DashEnv).clean_vendors) := by
  constructor
  · intro scT scP env cp rawVn
    simp only [match_vendor, match_vendorT]
    repeat' split
    all_goals try exact Or.inl rfl
    all_goals right
    all_goals
      first
        | exact memRefCl (cleanVendorsLower_val (by assumption))
        | exact memRefCl (List.mem_of_find?_eq_some (by assumption))
        | exact memRefCl (extractOne_mem (by assumption))
        | exact memRefLoc (resolve_mem (by assumption)) (by simp_all)
        | exact memRefLoc (resolve_mem (by assumption)) (extractOne_mem (by assumption))
        | exact dashLocStage_mem (by unfold dashLocStage; assumption)
  · exact ⟨rfl, by decide⟩

/-! ### Claim C4 — location-scoped lookups stay inside the location's set -/

theorem cpTo_fold_mem :
    ∀ (lt : List (String × List String)) (m : List (String × String))
      (p : String × String),
      p ∈ lt.foldl (fun m q => aupsert m (normalize_for_lookup q.1) q.1) m →
      p ∈ m ∨ (p.1 = normalize_for_lookup p.2 ∧ p.2 ∈ lt.map (·.1)) := by
  intro lt
  induction lt with
  | nil => intro m p h; exact Or.inl h
  | cons q qs ih =>
    intro m p h
    simp only [List.foldl_cons] at h
    rcases ih (aupsert m (normalize_for_lookup q.1) q.1) p h with h2 | h2
    · rcases aupsert_mem h2 with h3 | h3
      · exact Or.inl h3
      · right
        rw [h3]
        exact ⟨rfl, List.mem_cons_self _ _⟩
    · right
      exact ⟨h2.1, List.mem_cons_of_mem _ h2.2⟩

theorem buildCpToLocation_mem {lt : List (String × List String)} {k loc : String}
    (h : (k, loc) ∈ buildCpToLocation lt) :
    k = normalize_for_lookup loc ∧ loc ∈ lt.map (·.1) := by
  rcases cpTo_fold_mem lt [] (k, loc) h with h2 | h2
  · simp at h2
  · exact h2

theorem lvl_inner_fold_mem :
    ∀ (vs : List String) (ln : String) (m : List ((String × String) × String))
      (p : (String × String) × String),
      p ∈ vs.foldl
        (fun m v =>
          let ke := normalize_for_lookup v
          let ka := normalize_aggressive v
          let m1 := if ke ≠ "" then aupsert m (ln, ke) v else m
          if ka ≠ "" then aupsert m1 (ln, ka) v else m1) m →
      p ∈ m ∨ (p.1.1 = ln ∧ p.2 ∈ vs) := by
  intro vs
  induction vs with
  | nil => intro ln m p h; exact Or.inl h
  | cons v vs ih =>
    intro ln m p h
    simp only [List.foldl_cons] at h
    rcases ih ln _ p h with h2 | h2
    · have step :
        ∀ (m0 : List ((String × String) × String)) (kk : String × String) (vv : String),
          p ∈ (if kk.2 ≠ "" then aupsert m0 kk vv else m0) → p ∈ m0 ∨ p = (kk, vv) := by
        intro m0 kk vv hp
        split at hp
        · exact aupsert_mem hp
        · exact Or.inl hp
      rcases step _ (ln, normalize_aggressive v) v h2 with h3 | h3
      · rcases step _ (ln, normalize_for_lookup v) v h3 with h4 | h4
        · exact Or.inl h4
        · right
          rw [h4]
          exact ⟨rfl, List.mem_cons_self _ _⟩
      · right
        rw [h3]
        exact ⟨rfl, List.mem_cons_self _ _⟩
    · exact Or.inr ⟨h2.1, List.mem_cons_of_mem _ h2.2⟩

theorem buildLocVendorLookup_mem {lt : List (String × List String)}
    {ln k v : String} (h : ((ln, k), v) ∈ buildLocVendorLookup lt) :
    ∃ q ∈ lt, ln = normalize_for_lookup q.1 ∧ v ∈ q.2 := by
  suffices hgen :
    ∀ (lt : List (String × List String)) (m : List ((String × String) × String)),
      ((ln, k), v) ∈ lt.foldl
        (fun m p =>
          let lnn := normalize_for_lookup p.1
          p.2.foldl
            (fun m w =>
              let ke := normalize_for_lookup w
              let ka := normalize_aggressive w
              let m1 := if ke ≠ "" then aupsert m (lnn, ke) w else m
              if ka ≠ "" then aupsert m1 (lnn, ka) w else m1) m) m →
      ((ln, k), v) ∈ m ∨ ∃ q ∈ lt, ln = normalize_for_lookup q.1 ∧ v ∈ q.2 by
    rcases hgen lt [] h with h2 | h2
    · simp at h2
    · exact h2
  intro lt2
  induction lt2 with
  | nil => intro m h2; exact Or.inl h2
  | cons q qs ih =>
    intro m h2
    simp only [List.foldl_cons] at h2
    rcases ih _ h2 with h3 | h3
    · rcases lvl_inner_fold_mem q.2 (normalize_for_lookup q.1) m ((ln, k), v) h3 with h4 | h4
      · exact Or.inl h4
      · right
        exact ⟨q, List.mem_cons_self q qs, h4.1, h4.2⟩
    · rcases h3 with ⟨q2, hq2, hp⟩
      exact Or.inr ⟨q2, List.mem_cons_of_mem q hq2, hp⟩

theorem locLoop_inv {lvl : List ((String × String) × String)}
    {cpl : List (String × String)} {n a v meth loc : String} :
    ∀ cps : List String,
      locLoop lvl cpl n a cps = some (v, meth, loc) →
      (∃ k, (k, loc) ∈ cpl) ∧
      ∃ kk, alookup lvl (normalize_for_lookup loc, kk) = some v := by
  intro cps
  induction cps with
  | nil => intro h; simp [locLoop] at h
  | cons cp rest ih =>
    intro h
    unfold locLoop at h
    cases h1 : alookup cpl (normalize_for_lookup cp) with
    | none =>
      rw [h1] at h
      exact ih h
    | some location =>
      rw [h1] at h
      dsimp only at h
      cases h2 : alookup lvl (normalize_for_lookup location, n) with
      | some w =>
        rw [h2] at h
        simp only [Option.some.injEq, Prod.mk.injEq] at h
        obtain ⟨hv, hm, hl⟩ := h
        subst hv hl
        exact ⟨⟨_, alookup_mem h1⟩, ⟨n, h2⟩⟩
      | none =>
        rw [h2] at h
        cases h3 : alookup lvl (normalize_for_lookup location, a) with
        | some w =>
          rw [h3] at h
          simp only [Option.some.injEq, Prod.mk.injEq] at h
          obtain ⟨hv, hm, hl⟩ := h
          subst hv hl
          exact ⟨⟨_, alookup_mem h1⟩, ⟨a, h3⟩⟩
        | none =>
          rw [h3] at h
          exact ih h

/-- C4 counterexample: two distinct locations (`SITE A` and `Site A`) share
the normalized key `SITE A`; the counterparty resolves to the later location
`Site A`, but the location-scoped lookup returns `Xcorp Alpha`, a vendor of
the shadowed sibling location, which is outside `Site A`'s vendor set. -/
theorem C4_counterexample :
    matchNameDet [] [("SITE A", ["Xcorp Alpha"]), ("Site A", ["Ybar Beta"])]
      [("Xcorp Alpha", "Site A")] "Xcorp Alpha" =
      .matched "Xcorp Alpha" "location_exact" (some "Site A") ∧
    alookup [("SITE A", ["Xcorp Alpha"]), ("Site A", ["Ybar Beta"])] "Site A" =
      some ["Ybar Beta"] ∧
    "Xcorp Alpha" ∉ ["Ybar Beta"] := by
  exact ⟨rfl, rfl, by decide⟩

/-- C4 (amended): the dashboard location stage only returns members of the
resolved candidate set, unconditionally; the deterministic location-scoped
lookup returns a member of the resolved location's vendor set provided
distinct location names have distinct normalized keys — when two locations
collide on a normalized key, a vendor of the shadowed sibling location can
be returned instead. -/
theorem C4_location_set_invariant :
    (∀ (scT scP : String → String → Nat) (a b c : Nat) (env : DashEnv)
        (cp : Option String) (vn v : String),
      dashLocStage scT scP a b c env cp vn = some v →
      ∃ cands, resolveCandidates scT a env cp = some cands ∧ v ∈ cands) ∧
    (∀ (cl : List String) (lt : List (String × List String))
        (rows : List (String × String)) (messy v meth loc : String),
      (∀ l1 l2, l1 ∈ lt.map (·.1) → l2 ∈ lt.map (·.1) →
        normalize_for_lookup l1 = normalize_for_lookup l2 → l1 = l2) →
      matchNameDet cl lt rows messy = .matched v meth (some loc) →
      ∃ vs, (loc, vs) ∈ lt ∧ v ∈ vs) := by
  constructor
  · intro scT scP a b c env cp vn v h
    unfold dashLocStage at h
    repeat' split at h
    all_goals try simp_all
    all_goals
      first
        | exact extractOne_mem (by assumption)
        | exact ⟨_, by assumption, extractOne_mem (by assumption)⟩
        | exact ⟨_, by assumption, by simp_all⟩
        | simp_all
  · intro cl lt rows messy v meth loc hinj h
    simp only [matchNameDet] at h
    cases h1 : alookup MANUAL_OVERRIDES_DET messy <;> rw [h1] at h
    case some => simp at h
    cases h2 : is_invalid_name messy <;> rw [h2] at h
    case some => simp at h
    cases h3 : alookup (buildExactMap cl) (normalize_for_lookup messy) <;> rw [h3] at h
    case some => simp at h
    cases h4 : alookup (buildAggMap cl) (normalize_aggressive messy) <;> rw [h4] at h
    case some => simp at h
    cases h5 : locLoop (buildLocVendorLookup lt) (buildCpToLocation lt)
        (normalize_for_lookup messy) (normalize_aggressive messy)
        ((rows.filter fun r => r.1 = messy).map (·.2)) <;> rw [h5] at h
    case none => simp at h
    case some trip =>
      obtain ⟨v0, m0, l0⟩ := trip
      simp only [Option.some.injEq, DetRes.matched.injEq] at h
      obtain ⟨hv, hm, hl⟩ := h
      subst hv hm hl
      obtain ⟨⟨k, hkl⟩, ⟨kk, hlook⟩⟩ := locLoop_inv _ h5
      obtain ⟨q, hq, hln, hvq⟩ := buildLocVendorLookup_mem (alookup_mem hlook)
      have hloc := buildCpToLocation_mem hkl
      have hq1 : q.1 = l0 := by
        apply hinj q.1 l0 (List.mem_map.mpr ⟨q, hq, rfl⟩) hloc.2
        exact hln.symm
      refine ⟨q.2, ?_, hvq⟩
      have : (q.1, q.2) = (l0, q.2) := by rw [hq1]
      rw [← this]
      simpa using hq

/-- Witness for C4: both conjuncts instantiated on concrete data. -/
theorem C4_location_set_invariant_witness :
    (∃ cands,
      resolveCandidates (fun _ _ => 0) 75
        ⟨["Acme Disposal"], [("Site A", ["Acme Disposal"])]⟩ (some "Site A") =
        some cands ∧ "Acme Disposal" ∈ cands) ∧
    (∃ vs, ("Loc One", vs) ∈ [("Loc One", ["Acme Co"])] ∧ "Acme Co" ∈ vs) := by
  constructor
  · exact C4_location_set_invariant.1 (fun _ _ => 0) (fun _ _ => 0) 75 35 50
      ⟨["Acme Disposal"], [("Site A", ["Acme Disposal"])]⟩ (some "Site A")
      "ZZZ TOTALLY DIFFERENT" "Acme Disposal" rfl
  · refine C4_location_set_invariant.2 [] [("Loc One", ["Acme Co"])]
      [("Acme Co", "Loc One")] "Acme Co" "Acme Co" "location_exact" "Loc One" ?_ rfl
    intro l1 l2 h1 h2 _
    have e1 : l1 = "Loc One" := by simpa using h1
    have e2 : l2 = "Loc One" := by simpa using h2
    rw [e1, e2]

/-! ### Claim C8 — lowering thresholds never loses matches -/

theorem flm_mono (scT : String → String → Nat) {t tp : Nat} (hle : t ≤ tp)
    {cp l : String} {locNames : List String}
    (h : find_location_match scT tp cp locNames = some l) :
    find_location_match scT t cp locNames = some l := by
  unfold find_location_match at h ⊢
  split at h
  · rename_i loc heq
    try simp only [heq]
    exact h
  · rename_i heq
    try simp only [heq]
    split at h
    · rename_i best s heq2
      try simp only [heq2]
      split at h
      · rename_i hts
        rw [if_pos (Nat.le_trans hle hts)]
        exact h
      · exact absurd h (by simp)
    · rename_i heq2
      exact absurd h (by simp)

theorem extractOne_isSome {sc : String → String → Nat} {q : String} {l : List String}
    (h : l ≠ []) : (extractOne sc q l).isSome := by
  cases l with
  | nil => exact absurd rfl h
  | cons c cs => simp [extractOne]

theorem candsNorm_fold_mem :
    ∀ (cands : List String) (m : List (String × String)) (p : String × String),
      p ∈ cands.foldl
        (fun m v => if normalize_name v ≠ "" then aupsert m (normalize_name v) v else m)
        m →
      p ∈ m ∨ normalize_name p.2 ≠ "" := by
  intro cands
  induction cands with
  | nil => intro m p h; exact Or.inl h
  | cons v vs ih =>
    intro m p h
    simp only [List.foldl_cons] at h
    rcases ih _ p h with h2 | h2
    · split at h2
      · rcases aupsert_mem h2 with h3 | h3
        · exact Or.inl h3
        · right
          rw [h3]
          assumption
      · exact Or.inl h2
    · exact Or.inr h2

theorem candsNorm_val_ne {cands : List String} {k v : String}
    (h : alookup (candsNormOf cands) k = some v) : v ≠ "" := by
  rcases candsNorm_fold_mem cands [] (k, v) (alookup_mem h) with h2 | h2
  · simp at h2
  · intro he
    apply h2
    rw [he]
    show normalize_name "" = ""
    rfl

theorem alookup_isSome_of_mem_keys {α β : Type} [DecidableEq α]
    {m : List (α × β)} {k : α} (h : k ∈ m.map (·.1)) : (alookup m k).isSome := by
  induction m with
  | nil => simp at h
  | cons p m ih =>
    rw [alookup_cons]
    by_cases hpk : p.1 = k
    · simp [hpk]
    · rw [if_neg hpk]
      apply ih
      rcases List.mem_map.mp h with ⟨q, hq, he⟩
      rcases List.mem_cons.mp hq with h3 | h3
      · exact absurd (h3 ▸ he) hpk
      · exact List.mem_map.mpr ⟨q, h3, he⟩

theorem fbm_truthy_mono (scT scP : String → String → Nat) {t1 t1p t2 t2p : Nat}
    (h1 : t1 ≤ t1p) (h2 : t2 ≤ t2p) (messy : String) (cands : List String)
    (h : truthyV (find_best_match scT scP t1p t2p messy cands) = true) :
    truthyV (find_best_match scT scP t1 t2 messy cands) = true := by
  unfold find_best_match at h ⊢
  split at h
  · exact absurd h (by simp [truthyV])
  · rename_i hne
    rw [if_neg hne]
    split at h
    · rename_i v heq1
      try simp only [heq1]
      exact h
    · rename_i heq1
      try simp only [heq1]
      split at h
      · rename_i v heq2
        try simp only [heq2]
        exact h
      · rename_i heq2
        try simp only [heq2]
        split at h
        · exact absurd h (by simp [truthyV])
        · rename_i hcn
          rw [if_neg hcn]
          split at h
          · rename_i best s heq3
            try simp only [heq3]
            split at h
            · rename_i hts
              rw [if_pos (Nat.le_trans h1 hts)]
              exact h
            · rename_i hts
              by_cases hts2 : t1 ≤ s
              · rw [if_pos hts2]
                have hbm : best ∈ (candsNormOf cands).map (·.1) := by
                  simpa using extractOne_mem heq3
                cases hl : alookup (candsNormOf cands) best with
                | none =>
                  have hs := alookup_isSome_of_mem_keys hbm
                  rw [hl] at hs
                  simp at hs
                | some w =>
                  simp only [truthyV, hl]
                  simpa using candsNorm_val_ne hl
              · rw [if_neg hts2]
                split at h
                · rename_i bp sp heq4
                  try simp only [heq4]
                  split at h
                  · rename_i htp
                    rw [if_pos (Nat.le_trans h2 htp)]
                    exact h
                  · exact absurd h (by simp [truthyV])
                · exact absurd h (by simp [truthyV])
          · rename_i heq3
            exact absurd h (by simp [truthyV])

theorem aupsert_isSome_mono {α β : Type} [DecidableEq α] {m : List (α × β)}
    {k n : α} {v : β} (h : (alookup m n).isSome) :
    (alookup (aupsert m k v) n).isSome := by
  by_cases hnk : n = k
  · subst hnk
    rw [alookup_aupsert_self]
    simp
  · rw [alookup_aupsert_ne _ _ _ _ hnk]
    exact h

theorem v2Stage2_truthy_mono {scT scP : String → String → Nat}
    {tL tC tG tP tLp tCp tGp tPp : Nat} {lt : List (String × List String)}
    {mvc cp : String} (hL : tL ≤ tLp) (hC : tC ≤ tCp) (hP : tP ≤ tPp)
    (h : truthyV (v2Stage2 ⟨scT, scP, tLp, tCp, tGp, tPp⟩ lt mvc cp) = true) :
    truthyV (v2Stage2 ⟨scT, scP, tL, tC, tG, tP⟩ lt mvc cp) = true := by
  unfold v2Stage2 v2LocMatch at h ⊢
  dsimp only at h ⊢
  cases hf : find_location_match scT tLp cp (lt.map (·.1)) with
  | none =>
    rw [hf] at h
    exact absurd h (by simp [truthyV])
  | some location =>
    rw [hf] at h
    rw [flm_mono scT hL hf]
    dsimp only at h ⊢
    by_cases hemp : location = ""
    · rw [if_pos hemp] at h
      exact absurd h (by simp [truthyV])
    · rw [if_neg hemp] at h
      rw [if_neg hemp]
      cases ha : alookup lt location with
      | none =>
        rw [ha] at h
        exact absurd h (by simp [truthyV])
      | some cands =>
        rw [ha] at h
        exact fbm_truthy_mono scT scP hC hP mvc cands h

theorem v2MatchRow_isSome_mono {scT scP : String → String → Nat}
    {tL tC tG tP tLp tCp tGp tPp : Nat} {cl : List String}
    {lt : List (String × List String)} {vn cp : String}
    (hL : tL ≤ tLp) (hC : tC ≤ tCp) (hG : tG ≤ tGp) (hP : tP ≤ tPp)
    (h : (v2MatchRow ⟨scT, scP, tLp, tCp, tGp, tPp⟩ cl lt vn cp).isSome) :
    (v2MatchRow ⟨scT, scP, tL, tC, tG, tP⟩ cl lt vn cp).isSome := by
  unfold v2MatchRow at h ⊢
  dsimp only at h ⊢
  cases ho : alookup MANUAL_OVERRIDES_V2 (clean_name vn) with
  | some t => simp
  | none =>
    rw [ho] at h
    dsimp only at h ⊢
    by_cases h2 : truthyV (v2Stage2 ⟨scT, scP, tL, tC, tG, tP⟩ lt (clean_name vn) cp) = true
    · rw [if_pos h2]
      simp
    · rw [if_neg h2]
      by_cases h2p : truthyV (v2Stage2 ⟨scT, scP, tLp, tCp, tGp, tPp⟩ lt (clean_name vn) cp) = true
      · exact absurd (v2Stage2_truthy_mono hL hC hP h2p) h2
      · rw [if_neg h2p] at h
        by_cases h3 : truthyV (find_best_match scT scP tG tP (clean_name vn) cl) = true
        · rw [if_pos h3]
          simp
        · rw [if_neg h3]
          by_cases h3p : truthyV (find_best_match scT scP tGp tPp (clean_name vn) cl) = true
          · exact absurd (fbm_truthy_mono scT scP hG hP _ _ h3p) h3
          · rw [if_neg h3p] at h
            by_cases h4 : truthyV (try_partial_name_match (clean_name vn) cl 4) = true
            · rw [if_pos h4]
              simp
            · rw [if_neg h4] at h ⊢
              simp at h

theorem v2Step_keys_mono {cfg : V2Cfg} {cl : List String}
    {lt : List (String × List String)} {m : List (String × String)}
    {row : String × String} {n : String} (h : (alookup m n).isSome) :
    (alookup (v2Step cfg cl lt m row) n).isSome := by
  unfold v2Step
  dsimp only
  split
  · exact h
  · split
    · split
      · exact aupsert_isSome_mono (aupsert_isSome_mono h)
      · exact aupsert_isSome_mono h
    · exact h

theorem v2Step_commits {cfg : V2Cfg} {cl : List String}
    {lt : List (String × List String)} {m : List (String × String)}
    {row : String × String}
    (h : (v2MatchRow cfg cl lt row.1 row.2).isSome) :
    (alookup (v2Step cfg cl lt m row) (clean_name row.1)).isSome := by
  unfold v2Step
  dsimp only
  by_cases hc : (alookup m (clean_name row.1)).isSome
  · rw [if_pos hc]
    exact hc
  · rw [if_neg hc]
    cases hm : v2MatchRow cfg cl lt row.1 row.2 with
    | none =>
      rw [hm] at h
      simp at h
    | some trip =>
      obtain ⟨v, s, meth⟩ := trip
      dsimp only
      split
      · exact aupsert_isSome_mono (by rw [alookup_aupsert_self]; simp)
      · rw [alookup_aupsert_self]
        simp

theorem v2Step_mono {scT scP : String → String → Nat}
    {tL tC tG tP tLp tCp tGp tPp : Nat} {cl : List String}
    {lt : List (String × List String)} {m mp : List (String × String)}
    {row : String × String}
    (hL : tL ≤ tLp) (hC : tC ≤ tCp) (hG : tG ≤ tGp) (hP : tP ≤ tPp)
    (hrow : clean_name row.1 = row.1)
    (hinv : ∀ n, (alookup mp n).isSome → (alookup m n).isSome) :
    ∀ n, (alookup (v2Step ⟨scT, scP, tLp, tCp, tGp, tPp⟩ cl lt mp row) n).isSome →
      (alookup (v2Step ⟨scT, scP, tL, tC, tG, tP⟩ cl lt m row) n).isSome := by
  intro n hn
  unfold v2Step at hn
  dsimp only at hn
  by_cases hc1 : (alookup mp (clean_name row.1)).isSome
  · rw [if_pos hc1] at hn
    exact v2Step_keys_mono (hinv n hn)
  · rw [if_neg hc1] at hn
    cases hm : v2MatchRow ⟨scT, scP, tLp, tCp, tGp, tPp⟩ cl lt row.1 row.2 with
    | none =>
      rw [hm] at hn
      exact v2Step_keys_mono (hinv n hn)
    | some trip =>
      rw [hm] at hn
      obtain ⟨v, s, meth⟩ := trip
      dsimp only at hn
      rw [if_neg (by rw [hrow]; simp)] at hn
      by_cases hn2 : n = clean_name row.1
      · subst hn2
        exact v2Step_commits
          (v2MatchRow_isSome_mono hL hC hG hP (by rw [hm]; simp))
      · rw [alookup_aupsert_ne _ _ _ _ hn2] at hn
        exact v2Step_keys_mono (hinv n hn)

theorem v2Build_fold_mono {scT scP : String → String → Nat}
    {tL tC tG tP tLp tCp tGp tPp : Nat} {cl : List String}
    {lt : List (String × List String)}
    (hL : tL ≤ tLp) (hC : tC ≤ tCp) (hG : tG ≤ tGp) (hP : tP ≤ tPp) :
    ∀ (rows : List (String × String)) (m mp : List (String × String)),
      (∀ r ∈ rows, clean_name r.1 = r.1) →
      (∀ n, (alookup mp n).isSome → (alookup m n).isSome) →
      ∀ n, (alookup (rows.foldl (v2Step ⟨scT, scP, tLp, tCp, tGp, tPp⟩ cl lt) mp) n).isSome →
        (alookup (rows.foldl (v2Step ⟨scT, scP, tL, tC, tG, tP⟩ cl lt) m) n).isSome := by
  intro rows
  induction rows with
  | nil => intro m mp _ hinv n hn; exact hinv n hn
  | cons r rs ih =>
    intro m mp hcl hinv n hn
    simp only [List.foldl_cons] at hn ⊢
    exact ih _ _ (fun q hq => hcl q (List.mem_cons_of_mem r hq))
      (v2Step_mono hL hC hG hP (hcl r (List.mem_cons_self r rs)) hinv) n hn

/-- C8: for a fixed input set whose invoice rows carry load-cleaned vendor
names (as the source's load step guarantees), lowering any of the four
acceptance thresholds — location fuzzy, constrained fuzzy, global fuzzy, or
partial — never loses a name from the committed normalization map: every
name matched under the higher thresholds is still matched under the lower
ones. -/
theorem C8_threshold_monotonicity :
    ∀ (scT scP : String → String → Nat) (tL tC tG tP tLp tCp tGp tPp : Nat)
      (cl : List String) (lt : List (String × List String))
      (rows : List (String × String)) (name : String),
      tL ≤ tLp → tC ≤ tCp → tG ≤ tGp → tP ≤ tPp →
      (∀ r ∈ rows, clean_name r.1 = r.1) →
      (alookup (v2BuildMap ⟨scT, scP, tLp, tCp, tGp, tPp⟩ cl lt rows) name).isSome = true →
      (alookup (v2BuildMap ⟨scT, scP, tL, tC, tG, tP⟩ cl lt rows) name).isSome = true := by
  intro scT scP tL tC tG tP tLp tCp tGp tPp cl lt rows name hL hC hG hP hcl h
  exact v2Build_fold_mono hL hC hG hP rows [] [] hcl (fun n hn => hn) name h

/-- Witness for C8 at concrete thresholds `(0,0,0,0) ≤ (80,65,80,90)` on a
one-row input resolved by the override stage. -/
theorem C8_threshold_monotonicity_witness :
    (alookup (v2BuildMap ⟨fun _ _ => 0, fun _ _ => 0, 0, 0, 0, 0⟩ []
      [] [("ANYTIME", "X")]) "ANYTIME").isSome = true :=
  C8_threshold_monotonicity (fun _ _ => 0) (fun _ _ => 0) 0 0 0 0 80 65 80 90
    [] [] [("ANYTIME", "X")] "ANYTIME"
    (by decide) (by decide) (by decide) (by decide)
    (by
      intro r hr
      simp only [List.mem_singleton] at hr
      subst hr
      rfl)
    rfl

/-! ### Claim C7 — character-level facts -/

theorem char_toNat_inj {c d : Char} (h : c.toNat = d.toNat) : c = d := by
  have h1 := Char.ofNat_toNat c
  have h2 := Char.ofNat_toNat d
  rw [← h1, ← h2, h]

theorem isUpper_iff (c : Char) : c.isUpper = true ↔ 65 ≤ c.toNat ∧ c.toNat ≤ 90 := by
  unfold Char.isUpper
  rw [Bool.and_eq_true, decide_eq_true_iff, decide_eq_true_iff]
  exact Iff.rfl

theorem isLower_iff (c : Char) : c.isLower = true ↔ 97 ≤ c.toNat ∧ c.toNat ≤ 122 := by
  unfold Char.isLower
  rw [Bool.and_eq_true, decide_eq_true_iff, decide_eq_true_iff]
  exact Iff.rfl

theorem isDigit_iff (c : Char) : c.isDigit = true ↔ 48 ≤ c.toNat ∧ c.toNat ≤ 57 := by
  unfold Char.isDigit
  rw [Bool.and_eq_true, decide_eq_true_iff, decide_eq_true_iff]
  exact Iff.rfl

theorem pyIsSpace_iff (c : Char) :
    pyIsSpace c = true ↔
      c.toNat = 32 ∨ c.toNat = 9 ∨ c.toNat = 10 ∨ c.toNat = 11 ∨ c.toNat = 12 ∨
      c.toNat = 13 := by
  constructor
  · intro h
    unfold pyIsSpace at h
    simp only [Bool.or_eq_true, decide_eq_true_iff] at h
    rcases h with ((((h | h) | h) | h) | h) | h <;> subst h <;> decide
  · intro h
    unfold pyIsSpace
    simp only [Bool.or_eq_true, decide_eq_true_iff]
    rcases h with h | h | h | h | h | h
    · exact Or.inl (Or.inl (Or.inl (Or.inl (Or.inl (char_toNat_inj h)))))
    · exact Or.inl (Or.inl (Or.inl (Or.inl (Or.inr (char_toNat_inj h)))))
    · exact Or.inl (Or.inl (Or.inl (Or.inr (char_toNat_inj h))))
    · exact Or.inl (Or.inl (Or.inr (char_toNat_inj h)))
    · exact Or.inl (Or.inr (char_toNat_inj h))
    · exact Or.inr (char_toNat_inj h)

theorem isWordChar_iff (c : Char) :
    isWordChar c = true ↔
      (65 ≤ c.toNat ∧ c.toNat ≤ 90) ∨ (97 ≤ c.toNat ∧ c.toNat ≤ 122) ∨
      (48 ≤ c.toNat ∧ c.toNat ≤ 57) ∨ c.toNat = 95 ∨ 128 ≤ c.toNat := by
  constructor
  · intro h
    unfold isWordChar at h
    simp only [Bool.or_eq_true, decide_eq_true_iff, isUpper_iff, isLower_iff,
      isDigit_iff] at h
    rcases h with (((h | h) | h) | h) | h
    · exact Or.inl h
    · exact Or.inr (Or.inl h)
    · exact Or.inr (Or.inr (Or.inl h))
    · exact Or.inr (Or.inr (Or.inr (Or.inl (by rw [h]; rfl))))
    · exact Or.inr (Or.inr (Or.inr (Or.inr h)))
  · intro h
    unfold isWordChar
    simp only [Bool.or_eq_true, decide_eq_true_iff, isUpper_iff, isLower_iff, isDigit_iff]
    rcases h with h | h | h | h | h
    · exact Or.inl (Or.inl (Or.inl (Or.inl h)))
    · exact Or.inl (Or.inl (Or.inl (Or.inr h)))
    · exact Or.inl (Or.inl (Or.inr h))
    · exact Or.inl (Or.inr (char_toNat_inj h))
    · exact Or.inr h

theorem pyUpperC_spec (c : Char) :
    (97 ≤ c.toNat ∧ c.toNat ≤ 122 ∧ (pyUpperC c).toNat = c.toNat - 32) ∨
    (¬(97 ≤ c.toNat ∧ c.toNat ≤ 122) ∧ pyUpperC c = c) := by
  unfold pyUpperC
  by_cases h : 'a' ≤ c ∧ c ≤ 'z'
  · left
    refine ⟨h.1, h.2, ?_⟩
    rw [if_pos h]
    show (Char.ofNat (c.toNat - 32)).toNat = c.toNat - 32
    unfold Char.ofNat
    rw [dif_pos]
    · rfl
    · constructor
      have h1 : 97 ≤ c.toNat := h.1
      have h2 : c.toNat ≤ 122 := h.2
      omega
  · right
    exact ⟨h, if_neg h⟩

theorem pyUpperC_isSpace (c : Char) : pyIsSpace (pyUpperC c) = pyIsSpace c := by
  rcases pyUpperC_spec c with ⟨h1, h2, h3⟩ | ⟨h1, h2⟩
  · have ha : pyIsSpace (pyUpperC c) = false := by
      rw [← Bool.not_eq_true, pyIsSpace_iff]
      omega
    have hb : pyIsSpace c = false := by
      rw [← Bool.not_eq_true, pyIsSpace_iff]
      omega
    rw [ha, hb]
  · rw [h2]

theorem pyUpperC_idem (c : Char) : pyUpperC (pyUpperC c) = pyUpperC c := by
  rcases pyUpperC_spec c with ⟨h1, h2, h3⟩ | ⟨h1, h2⟩
  · rcases pyUpperC_spec (pyUpperC c) with ⟨g1, g2, g3⟩ | ⟨g1, g2⟩
    · omega
    · exact g2
  · rw [h2, h2]

theorem pyUpperC_not_lower (c : Char) : (pyUpperC c).isLower = false := by
  rcases pyUpperC_spec c with ⟨h1, h2, h3⟩ | ⟨h1, h2⟩
  · rw [← Bool.not_eq_true, isLower_iff]
    omega
  · rw [h2, ← Bool.not_eq_true, isLower_iff]
    omega

theorem pyUpperC_ascii {c : Char} (h : c.toNat < 128) : (pyUpperC c).toNat < 128 := by
  rcases pyUpperC_spec c with ⟨h1, h2, h3⟩ | ⟨h1, h2⟩
  · omega
  · rw [h2]
    exact h

theorem pyUpperC_ne_underscore {c : Char} (h : c ≠ '_') : pyUpperC c ≠ '_' := by
  rcases pyUpperC_spec c with ⟨h1, h2, h3⟩ | ⟨h1, h2⟩
  · intro he
    have : (pyUpperC c).toNat = 95 := by rw [he]; rfl
    omega
  · rw [h2]
    exact h

theorem pyUpperC_fix {c : Char} (h : c.isUpper = true ∨ c.isDigit = true ∨ c = ' ') :
    pyUpperC c = c := by
  rcases pyUpperC_spec c with ⟨h1, h2, h3⟩ | ⟨h1, h2⟩
  · exfalso
    rcases h with h | h | h
    · rw [isUpper_iff] at h
      omega
    · rw [isDigit_iff] at h
      omega
    · subst h
      simp at h1
  · exact h2

/-! ### Claim C7 — canonical whitespace form

A list is in canonical whitespace form when it neither starts nor ends with
whitespace (`headOkB`, `lastOkB`), every whitespace character in it is a plain
space (`allSpB`), and no two adjacent characters are both whitespace (`no2B`).
Strings output by strip/collapse are canonical, and strip/collapse fix
canonical strings. -/

def headOkB : List Char → Bool
  | [] => true
  | c :: _ => !pyIsSpace c

def lastOkB (l : List Char) : Bool := headOkB l.reverse

def allSpB (l : List Char) : Bool := l.all fun c => !pyIsSpace c || c = ' '

def no2B : List Char → Bool
  | [] => true
  | [_] => true
  | c :: d :: rest => (!(pyIsSpace c && pyIsSpace d)) && no2B (d :: rest)

theorem dw_headOk : ∀ l : List Char, headOkB (l.dropWhile pyIsSpace) = true
  | [] => rfl
  | c :: cs => by
    rw [List.dropWhile_cons]
    split
    · exact dw_headOk cs
    · next h =>
      have hc : pyIsSpace c = false := by
        cases hx : pyIsSpace c
        · rfl
        · exact absurd hx h
      show (!pyIsSpace c) = true
      rw [hc]
      rfl

theorem stripL_eq (l : List Char) :
    l = l.takeWhile pyIsSpace ++ stripL l :=
  (List.takeWhile_append_dropWhile pyIsSpace l).symm

theorem stripR_eq (l : List Char) :
    l = stripR l ++ (l.reverse.takeWhile pyIsSpace).reverse := by
  have h : l.reverse.takeWhile pyIsSpace ++ l.reverse.dropWhile pyIsSpace = l.reverse :=
    List.takeWhile_append_dropWhile pyIsSpace l.reverse
  have h2 := congrArg List.reverse h
  rw [List.reverse_append, List.reverse_reverse] at h2
  exact h2.symm

theorem headOk_append {a : List Char} (b : List Char) (h : a ≠ []) :
    headOkB (a ++ b) = headOkB a := by
  cases a with
  | nil => exact absurd rfl h
  | cons c cs => rfl

theorem stripL_headOk (l : List Char) : headOkB (stripL l) = true :=
  dw_headOk l

theorem stripR_headOk {l : List Char} (h : headOkB l = true) :
    headOkB (stripR l) = true := by
  cases hs : stripR l with
  | nil => rfl
  | cons c cs =>
    have hd := stripR_eq l
    rw [hs] at hd
    rw [hd] at h
    rw [headOk_append _ (by simp)] at h
    exact h

theorem stripR_lastOk (l : List Char) : lastOkB (stripR l) = true := by
  unfold lastOkB stripR
  rw [List.reverse_reverse]
  exact dw_headOk _

theorem stripL_lastOk {l : List Char} (h : lastOkB l = true) :
    lastOkB (stripL l) = true := by
  cases hs : stripL l with
  | nil => rfl
  | cons c cs =>
    have hd := stripL_eq l
    rw [hs] at hd
    unfold lastOkB at h ⊢
    rw [hd, List.reverse_append] at h
    rw [headOk_append _ (by simp)] at h
    exact h

theorem dropWhile_noop {l : List Char} (h : headOkB l = true) :
    l.dropWhile pyIsSpace = l := by
  cases l with
  | nil => rfl
  | cons c cs =>
    rw [List.dropWhile_cons]
    have hc : pyIsSpace c = false := by
      have : (!pyIsSpace c) = true := h
      cases hx : pyIsSpace c
      · rfl
      · rw [hx] at this
        exact absurd this (by decide)
    rw [hc]
    simp

theorem pyStrip_noop {l : List Char} (h1 : headOkB l = true) (h2 : lastOkB l = true) :
    pyStrip l = l := by
  unfold pyStrip stripL stripR
  rw [dropWhile_noop h1]
  rw [dropWhile_noop h2]
  exact l.reverse_reverse

theorem collapseGo_headOk_false {l : List Char} (h : headOkB l = true) :
    headOkB (collapseGo false l) = true := by
  cases l with
  | nil => rfl
  | cons c cs =>
    have hc : pyIsSpace c = false := by
      have hx : (!pyIsSpace c) = true := h
      cases hy : pyIsSpace c
      · rfl
      · rw [hy] at hx
        exact absurd hx (by decide)
    unfold collapseGo
    rw [hc]
    show (!pyIsSpace c) = true
    rw [hc]
    rfl

theorem collapseGo_true_headOk : ∀ l : List Char, headOkB (collapseGo true l) = true
  | [] => rfl
  | c :: cs => by
    unfold collapseGo
    cases hc : pyIsSpace c
    · show (!pyIsSpace c) = true
      rw [hc]
      rfl
    · exact collapseGo_true_headOk cs

theorem collapseGo_allSp : ∀ (l : List Char) (b : Bool), allSpB (collapseGo b l) = true
  | [], _ => rfl
  | c :: cs, b => by
    unfold collapseGo
    cases hc : pyIsSpace c
    · show (((!pyIsSpace c) || c = ' ') && allSpB (collapseGo false cs)) = true
      rw [hc, collapseGo_allSp cs false]
      simp
    · cases b
      · show (((!pyIsSpace ' ') || ' ' = ' ') && allSpB (collapseGo true cs)) = true
        rw [collapseGo_allSp cs true]
        simp
      · exact collapseGo_allSp cs true

theorem no2B_tail {c : Char} {l : List Char} (h : no2B (c :: l) = true) :
    no2B l = true := by
  cases l with
  | nil => rfl
  | cons d rest =>
    have : ((!(pyIsSpace c && pyIsSpace d)) && no2B (d :: rest)) = true := h
    exact (Bool.and_eq_true _ _ ▸ this).2

theorem no2_cons_of_headOk (c : Char) {X : List Char} (hX : headOkB X = true)
    (h2 : no2B X = true) : no2B (c :: X) = true := by
  cases X with
  | nil => rfl
  | cons d ds =>
    have hd : pyIsSpace d = false := by
      have hx : (!pyIsSpace d) = true := hX
      cases hy : pyIsSpace d
      · rfl
      · rw [hy] at hx
        exact absurd hx (by decide)
    show ((!(pyIsSpace c && pyIsSpace d)) && no2B (d :: ds)) = true
    rw [hd, h2, Bool.and_false]
    rfl

theorem no2_cons_of_not_space {c : Char} {X : List Char} (h : pyIsSpace c = false)
    (h2 : no2B X = true) : no2B (c :: X) = true := by
  cases X with
  | nil => rfl
  | cons d ds =>
    show ((!(pyIsSpace c && pyIsSpace d)) && no2B (d :: ds)) = true
    rw [h, h2, Bool.false_and]
    rfl

theorem collapseGo_no2 : ∀ (l : List Char) (b : Bool), no2B (collapseGo b l) = true
  | [], _ => rfl
  | c :: cs, b => by
    unfold collapseGo
    cases hc : pyIsSpace c
    · exact no2_cons_of_not_space hc (collapseGo_no2 cs false)
    · cases b
      · exact no2_cons_of_headOk ' ' (collapseGo_true_headOk cs) (collapseGo_no2 cs true)
      · exact collapseGo_no2 cs true

theorem lastOkB_cons {c : Char} {l : List Char} (h : l ≠ []) :
    lastOkB (c :: l) = lastOkB l := by
  unfold lastOkB
  rw [List.reverse_cons]
  exact headOk_append [c] (by rwa [ne_eq, List.reverse_eq_nil_iff])

theorem collapseGo_ne_nil : ∀ (l : List Char) (b : Bool),
    (∃ c ∈ l, pyIsSpace c = false) → collapseGo b l ≠ []
  | [], _, h => by
    obtain ⟨c, hc, _⟩ := h
    exact absurd hc (by simp)
  | c :: cs, b, h => by
    unfold collapseGo
    cases hc : pyIsSpace c
    · simp
    · cases b
      · simp
      · obtain ⟨d, hd, hds⟩ := h
        rcases List.mem_cons.mp hd with he | he
        · rw [he] at hds
          rw [hds] at hc
          exact absurd hc (by decide)
        · exact collapseGo_ne_nil cs true ⟨d, he, hds⟩

theorem lastOkB_exists {l : List Char} (h : lastOkB l = true) (hne : l ≠ []) :
    ∃ c ∈ l, pyIsSpace c = false := by
  cases hrev : l.reverse with
  | nil => exact absurd (List.reverse_eq_nil_iff.mp hrev) hne
  | cons c t =>
    refine ⟨c, ?_, ?_⟩
    · rw [← List.mem_reverse, hrev]
      exact List.mem_cons_self c t
    · have hx : (!pyIsSpace c) = true := by
        have := h
        unfold lastOkB at this
        rw [hrev] at this
        exact this
      cases hy : pyIsSpace c
      · rfl
      · rw [hy] at hx
        exact absurd hx (by decide)

theorem collapseGo_lastOk : ∀ (l : List Char) (b : Bool), lastOkB l = true →
    lastOkB (collapseGo b l) = true
  | [], _, _ => rfl
  | c :: cs, b, h => by
    cases hcs : cs with
    | nil =>
      subst hcs
      have hc : pyIsSpace c = false := by
        have hx : (!pyIsSpace c) = true := h
        cases hy : pyIsSpace c
        · rfl
        · rw [hy] at hx
          exact absurd hx (by decide)
      unfold collapseGo
      rw [hc]
      exact h
    | cons d ds =>
      subst hcs
      have hcs2 : lastOkB (d :: ds) = true := by
        rwa [lastOkB_cons (by simp)] at h
      unfold collapseGo
      cases hc : pyIsSpace c
      · show lastOkB (c :: collapseGo false (d :: ds)) = true
        cases hz : collapseGo false (d :: ds) with
        | nil =>
          show (!pyIsSpace c) = true
          rw [hc]
          rfl
        | cons e es =>
          rw [← hz]
          rw [lastOkB_cons (by rw [hz]; simp)]
          exact collapseGo_lastOk (d :: ds) false hcs2
      · cases b
        · have hne : collapseGo true (d :: ds) ≠ [] :=
            collapseGo_ne_nil (d :: ds) true (lastOkB_exists hcs2 (by simp))
          show lastOkB (' ' :: collapseGo true (d :: ds)) = true
          rw [lastOkB_cons hne]
          exact collapseGo_lastOk (d :: ds) true hcs2
        · exact collapseGo_lastOk (d :: ds) true hcs2

theorem collapse_noop : ∀ (l : List Char) (b : Bool), allSpB l = true →
    no2B l = true → (b = true → headOkB l = true) → collapseGo b l = l
  | [], _, _, _, _ => rfl
  | c :: cs, b, hA, hN, hH => by
    have hAc : ((!pyIsSpace c) || c = ' ') = true ∧ allSpB cs = true := by
      have hx : allSpB (c :: cs) = true := hA
      rw [show allSpB (c :: cs) = (((!pyIsSpace c) || c = ' ') && allSpB cs) from rfl] at hx
      exact Bool.and_eq_true _ _ ▸ hx
    unfold collapseGo
    cases hc : pyIsSpace c
    · show c :: collapseGo false cs = c :: cs
      rw [collapse_noop cs false hAc.2 (no2B_tail hN) (by simp)]
    · cases b
      · have hcsp : c = ' ' := by
          have := hAc.1
          rw [hc] at this
          simpa using this
        have hHcs : headOkB cs = true := by
          cases cs with
          | nil => rfl
          | cons d ds =>
            have hx : ((!(pyIsSpace c && pyIsSpace d)) && no2B (d :: ds)) = true := hN
            have hy := (Bool.and_eq_true _ _ ▸ hx).1
            rw [hc] at hy
            show (!pyIsSpace d) = true
            cases hz : pyIsSpace d
            · rfl
            · rw [hz] at hy
              exact absurd hy (by decide)
        show ' ' :: collapseGo true cs = c :: cs
        rw [collapse_noop cs true hAc.2 (no2B_tail hN) (fun _ => hHcs), hcsp]
      · exact absurd (hH rfl) (by rw [show headOkB (c :: cs) = (!pyIsSpace c) from rfl, hc]; decide)

theorem allSpB_sub {s l : List Char} (hsub : ∀ c ∈ s, c ∈ l) (h : allSpB l = true) :
    allSpB s = true := by
  rw [allSpB, List.all_eq_true] at h ⊢
  intro c hc
  exact h c (hsub c hc)

theorem no2B_append_left : ∀ (a b : List Char), no2B (a ++ b) = true → no2B a = true
  | [], _, _ => rfl
  | [_], _, _ => rfl
  | c :: d :: a1, b, h => by
    rw [List.cons_append, List.cons_append] at h
    have hx : ((!(pyIsSpace c && pyIsSpace d)) && no2B (d :: (a1 ++ b))) = true := h
    rw [Bool.and_eq_true] at hx
    show ((!(pyIsSpace c && pyIsSpace d)) && no2B (d :: a1)) = true
    rw [Bool.and_eq_true]
    refine ⟨hx.1, no2B_append_left (d :: a1) b ?_⟩
    rw [List.cons_append]
    exact hx.2

theorem no2B_dropWhile : ∀ l : List Char, no2B l = true →
    no2B (l.dropWhile pyIsSpace) = true
  | [], _ => rfl
  | c :: cs, h => by
    rw [List.dropWhile_cons]
    split
    · exact no2B_dropWhile cs (no2B_tail h)
    · exact h

theorem no2B_pyStrip {l : List Char} (h : no2B l = true) : no2B (pyStrip l) = true := by
  have h1 : no2B (stripL l) = true := no2B_dropWhile l h
  have h2 := stripR_eq (stripL l)
  rw [h2] at h1
  exact no2B_append_left _ _ h1

theorem stripL_mem {l : List Char} {c : Char} (h : c ∈ stripL l) : c ∈ l := by
  rw [stripL_eq l]
  exact List.mem_append_right _ h

theorem stripR_mem {l : List Char} {c : Char} (h : c ∈ stripR l) : c ∈ l := by
  rw [stripR_eq l]
  exact List.mem_append_left _ h

theorem pyStrip_mem {l : List Char} {c : Char} (h : c ∈ pyStrip l) : c ∈ l :=
  stripL_mem (stripR_mem h)

theorem collapseGo_mem : ∀ (l : List Char) (b : Bool) (c : Char),
    c ∈ collapseGo b l → c ∈ l ∨ c = ' '
  | [], _, _, h => absurd h (by unfold collapseGo; simp)
  | d :: ds, b, c, h => by
    unfold collapseGo at h
    by_cases hd : pyIsSpace d = true
    · rw [if_pos hd] at h
      cases b with
      | true =>
        rw [if_pos rfl] at h
        rcases collapseGo_mem ds true c h with h2 | h2
        · exact Or.inl (List.mem_cons_of_mem d h2)
        · exact Or.inr h2
      | false =>
        rw [if_neg (by decide)] at h
        rcases List.mem_cons.mp h with h2 | h2
        · exact Or.inr h2
        · rcases collapseGo_mem ds true c h2 with h3 | h3
          · exact Or.inl (List.mem_cons_of_mem d h3)
          · exact Or.inr h3
    · rw [if_neg hd] at h
      rcases List.mem_cons.mp h with h2 | h2
      · exact Or.inl (h2 ▸ List.mem_cons_self d ds)
      · rcases collapseGo_mem ds false c h2 with h3 | h3
        · exact Or.inl (List.mem_cons_of_mem d h3)
        · exact Or.inr h3

theorem map_fix {f : Char → Char} : ∀ l : List Char, (∀ c ∈ l, f c = c) → l.map f = l
  | [], _ => rfl
  | c :: cs, h => by
    rw [List.map_cons, h c (List.mem_cons_self c cs),
      map_fix cs fun d hd => h d (List.mem_cons_of_mem c hd)]

theorem headOkB_map_upper (l : List Char) :
    headOkB (l.map pyUpperC) = headOkB l := by
  cases l with
  | nil => rfl
  | cons c cs =>
    show (!pyIsSpace (pyUpperC c)) = !pyIsSpace c
    rw [pyUpperC_isSpace]

theorem lastOkB_map_upper (l : List Char) :
    lastOkB (l.map pyUpperC) = lastOkB l := by
  unfold lastOkB
  rw [← List.map_reverse]
  exact headOkB_map_upper l.reverse

theorem allSpB_map_upper {l : List Char} (h : allSpB l = true) :
    allSpB (l.map pyUpperC) = true := by
  rw [allSpB, List.all_eq_true] at h ⊢
  intro c hc
  rcases List.mem_map.mp hc with ⟨d, hd, hdc⟩
  have hds := h d hd
  rw [Bool.or_eq_true, decide_eq_true_iff] at hds ⊢
  rcases hds with hds | hds
  · left
    rw [← hdc, pyUpperC_isSpace]
    exact hds
  · right
    rw [← hdc, hds]
    exact pyUpperC_fix (Or.inr (Or.inr rfl))

theorem no2B_map_upper : ∀ l : List Char, no2B l = true →
    no2B (l.map pyUpperC) = true
  | [], _ => rfl
  | [_], _ => rfl
  | c :: d :: l1, h => by
    rw [List.map_cons, List.map_cons]
    have hx : ((!(pyIsSpace c && pyIsSpace d)) && no2B (d :: l1)) = true := h
    rw [Bool.and_eq_true] at hx
    show ((!(pyIsSpace (pyUpperC c) && pyIsSpace (pyUpperC d))) &&
      no2B (pyUpperC d :: List.map pyUpperC l1)) = true
    rw [Bool.and_eq_true]
    refine ⟨?_, ?_⟩
    · rw [pyUpperC_isSpace, pyUpperC_isSpace]
      exact hx.1
    · have h2 := no2B_map_upper (d :: l1) hx.2
      rw [List.map_cons] at h2
      exact h2

theorem normExact_out_canon (w : List Char) :
    headOkB ((collapseWS (pyStrip w)).map pyUpperC) = true ∧
    lastOkB ((collapseWS (pyStrip w)).map pyUpperC) = true ∧
    allSpB ((collapseWS (pyStrip w)).map pyUpperC) = true ∧
    no2B ((collapseWS (pyStrip w)).map pyUpperC) = true := by
  have hsH : headOkB (pyStrip w) = true := stripR_headOk (stripL_headOk w)
  have hsL : lastOkB (pyStrip w) = true := stripR_lastOk (stripL w)
  refine ⟨?_, ?_, ?_, ?_⟩
  · rw [headOkB_map_upper]
    exact collapseGo_headOk_false hsH
  · rw [lastOkB_map_upper]
    exact collapseGo_lastOk _ false hsL
  · exact allSpB_map_upper (collapseGo_allSp _ false)
  · exact no2B_map_upper _ (collapseGo_no2 _ false)

theorem normExact_fix {w : List Char} (hH : headOkB w = true) (hL : lastOkB w = true)
    (hA : allSpB w = true) (hN : no2B w = true) (hU : w.map pyUpperC = w) :
    (collapseWS (pyStrip w)).map pyUpperC = w := by
  rw [pyStrip_noop hH hL]
  rw [show collapseWS w = w from collapse_noop w false hA hN (by simp)]
  exact hU

theorem normalize_for_lookup_idem (s : String) :
    normalize_for_lookup (normalize_for_lookup s) = normalize_for_lookup s := by
  by_cases h : s = ""
  · rw [h]
    rfl
  · have ht : normalize_for_lookup s = ⟨(collapseWS (pyStrip s.data)).map pyUpperC⟩ := by
      unfold normalize_for_lookup
      rw [if_neg h]
    by_cases h2 : normalize_for_lookup s = ""
    · rw [h2]
      rfl
    · rw [ht] at h2 ⊢
      obtain ⟨hH, hL, hA, hN⟩ := normExact_out_canon s.data
      unfold normalize_for_lookup
      rw [if_neg h2]
      refine congrArg String.mk ?_
      show (collapseWS (pyStrip ((collapseWS (pyStrip s.data)).map pyUpperC))).map pyUpperC =
        (collapseWS (pyStrip s.data)).map pyUpperC
      refine normExact_fix hH hL hA hN ?_
      rw [List.map_map]
      refine List.map_congr_left ?_
      intro c _
      exact pyUpperC_idem c

/-! ### Claim C7 — suffix-scanner lemmas

The fueled scanner `remGen` is analyzed through: fuel stability, head-step
equations, an output-subset lemma, the word-run decomposition of its output,
and the key invariant that no bare suffix token survives as a complete word
run of the output.  `PredOk` characterizes inputs the scanner leaves
unchanged. -/

theorem suffixTail_drop {l : List Char} {w : Bool} {rest : List Char}
    (h : suffixTail l = some (w, rest)) : rest = l ∨ rest = l.drop 1 := by
  unfold suffixTail at h
  split at h
  · left
    injection h with h2
    injection h2 with ha hb
    exact hb.symm
  · split at h
    · left
      injection h with h2
      injection h2 with ha hb
      rw [← hb]
    · split at h
      · right
        injection h with h2
        injection h2 with ha hb
        rw [← hb]
        rfl
      · left
        injection h with h2
        injection h2 with ha hb
        rw [← hb]
  · split at h
    · exact absurd h (by simp)
    · left
      injection h with h2
      injection h2 with ha hb
      rw [← hb]

theorem suffixTail_some_of_nonword :
    ∀ {l : List Char}, (l = [] ∨ ∃ d ds, l = d :: ds ∧ isWordChar d = false) →
      suffixTail l ≠ none := by
  intro l h
  rcases h with h | ⟨d, ds, hl, hd⟩
  · subst h
    unfold suffixTail
    simp
  · subst hl
    unfold suffixTail
    split
    · simp
    · rename_i x2 rest2 heq
      cases rest2 with
      | nil => simp
      | cons e es =>
        split
        · simp
        · split <;> simp
    · rename_i x1 c2 rest2 hx heq
      injection heq with h1 h2
      rw [← h1, hd]
      simp

theorem suffixTail_true_rest {l : List Char} {rest : List Char}
    (h : suffixTail l = some (true, rest)) :
    rest = [] ∨ ∃ d ds, rest = d :: ds ∧ isWordChar d = false := by
  unfold suffixTail at h
  split at h
  · left
    injection h with h2
    injection h2 with ha hb
    exact hb.symm
  · split at h
    · right
      injection h with h2
      injection h2 with ha hb
      exact ⟨'.', [], hb.symm, by decide⟩
    · split at h
      · injection h with h2
        injection h2 with ha hb
        exact absurd ha (by decide)
      · right
        injection h with h2
        injection h2 with ha hb
        exact ⟨'.', _, hb.symm, by decide⟩
  · split at h
    · exact absurd h (by simp)
    · rename_i hw
      right
      injection h with h2
      injection h2 with ha hb
      refine ⟨_, _, hb.symm, ?_⟩
      exact Bool.eq_false_iff.mpr hw

theorem matchLit_append {tok l rest : List Char} (h : matchLit tok l = some rest) :
    l = tok ++ rest ∧ rest = l.drop tok.length := by
  unfold matchLit at h
  split at h
  · rename_i hp
    injection h with h2
    have hpre : tok <+: l := List.isPrefixOf_iff_prefix.mp hp
    obtain ⟨t, ht⟩ := hpre
    constructor
    · rw [← ht, ← h2]
      congr 1
      rw [← ht, List.drop_left]
    · exact h2.symm
  · exact absurd h (by simp)

theorem firstSome_eq_some {α β : Type} {f : α → Option β} :
    ∀ {as : List α} {b : β}, firstSome f as = some b → ∃ a ∈ as, f a = some b
  | [], b, h => by
    exact absurd h (by unfold firstSome; simp)
  | a :: as, b, h => by
    unfold firstSome at h
    cases hf : f a with
    | some b2 =>
      rw [hf] at h
      exact ⟨a, List.mem_cons_self a as, by rw [hf]; exact h⟩
    | none =>
      rw [hf] at h
      obtain ⟨a2, ha2, hfa2⟩ := firstSome_eq_some h
      exact ⟨a2, List.mem_cons_of_mem a ha2, hfa2⟩

theorem firstSome_ne_none_of_mem {α β : Type} {f : α → Option β} :
    ∀ {as : List α} {a : α}, a ∈ as → f a ≠ none → firstSome f as ≠ none
  | [], a, ha, _ => absurd ha (by simp)
  | a1 :: as, a, ha, hf => by
    unfold firstSome
    cases hf1 : f a1 with
    | some b => simp
    | none =>
      rcases List.mem_cons.mp ha with he | he
      · subst he
        exact absurd hf1 hf
      · exact firstSome_ne_none_of_mem he hf

theorem tryTokAt_some {tok l : List Char} {w : Bool} {rest : List Char}
    (h : tryTokAt tok l = some (w, rest)) :
    ∃ t, l = tok ++ t ∧ suffixTail t = some (w, rest) := by
  unfold tryTokAt at h
  cases hm : matchLit tok l with
  | some r =>
    rw [hm] at h
    exact ⟨r, (matchLit_append hm).1, h⟩
  | none =>
    rw [hm] at h
    exact absurd h (by simp)

theorem tryAlts_drops : TMdrops tryAlts := by
  intro l w rest h
  obtain ⟨tok, htok, hta⟩ := firstSome_eq_some h
  obtain ⟨t, hlt, hst⟩ := tryTokAt_some hta
  have hlen : 2 ≤ tok.length := by
    have : tok ∈ DET_ALTS := htok
    fin_cases this <;> decide
  rcases suffixTail_drop hst with hr | hr
  · refine ⟨tok.length, hlen, ?_⟩
    rw [hr, hlt, List.drop_left]
  · refine ⟨tok.length + 1, by omega, ?_⟩
    rw [hr, hlt]
    rw [List.drop_append_eq_append_drop]
    simp

theorem tryAlts_true_rest {l : List Char} {rest : List Char}
    (h : tryAlts l = some (true, rest)) :
    rest = [] ∨ ∃ d ds, rest = d :: ds ∧ isWordChar d = false := by
  obtain ⟨tok, htok, hta⟩ := firstSome_eq_some h
  obtain ⟨t, hlt, hst⟩ := tryTokAt_some hta
  exact suffixTail_true_rest hst

theorem remGenF_stable {tm : List Char → Option (Bool × List Char)} (htm : TMdrops tm) :
    ∀ (n m : Nat) (b : Bool) (l : List Char), l.length ≤ n → l.length ≤ m →
      remGenF tm n b l = remGenF tm m b l
  | 0, m, b, l, hn, _ => by
    have hl : l = [] := List.eq_nil_of_length_eq_zero (Nat.le_zero.mp hn)
    subst hl
    cases m <;> rfl
  | _ + 1, m, b, [], _, _ => by
    cases m <;> rfl
  | n + 1, m, b, c :: cs, hn, hm => by
    cases m with
    | zero => exact absurd hm (by simp)
    | succ m1 =>
      have hn2 : cs.length ≤ n := by
        simp only [List.length_cons] at hn
        omega
      have hm2 : cs.length ≤ m1 := by
        simp only [List.length_cons] at hm
        omega
      simp only [remGenF]
      by_cases hcond : b = false ∧ isWordChar c = true
      · rw [if_pos hcond, if_pos hcond]
        cases ht : tm (c :: cs) with
        | none =>
          exact congrArg (c :: ·) (remGenF_stable htm n m1 (isWordChar c) cs hn2 hm2)
        | some p =>
          obtain ⟨w, rest⟩ := p
          obtain ⟨k, hk2, hkr⟩ := htm _ _ _ ht
          have hrl : rest.length ≤ cs.length := by
            rw [hkr]
            simp only [List.length_drop, List.length_cons]
            omega
          exact remGenF_stable htm n m1 w rest (le_trans hrl hn2) (le_trans hrl hm2)
      · rw [if_neg hcond, if_neg hcond]
        exact congrArg (c :: ·) (remGenF_stable htm n m1 (isWordChar c) cs hn2 hm2)

theorem remGen_nil (tm : List Char → Option (Bool × List Char)) (b : Bool) :
    remGen tm b [] = [] := rfl

theorem remGen_cons_skip {tm : List Char → Option (Bool × List Char)} {b : Bool}
    {c : Char} {cs : List Char} (hb : ¬(b = false ∧ isWordChar c = true)) :
    remGen tm b (c :: cs) = c :: remGen tm (isWordChar c) cs := by
  show remGenF tm (cs.length + 1) b (c :: cs) = c :: remGenF tm cs.length (isWordChar c) cs
  simp only [remGenF]
  rw [if_neg hb]

theorem remGen_cons_nomatch {tm : List Char → Option (Bool × List Char)} {c : Char}
    {cs : List Char} (hw : isWordChar c = true) (hm : tm (c :: cs) = none) :
    remGen tm false (c :: cs) = c :: remGen tm true cs := by
  show remGenF tm (cs.length + 1) false (c :: cs) = c :: remGenF tm cs.length true cs
  simp only [remGenF]
  rw [if_pos (And.intro trivial hw), hm, hw]

theorem remGen_cons_match {tm : List Char → Option (Bool × List Char)}
    (htm : TMdrops tm) {c : Char} {cs : List Char} {w : Bool} {rest : List Char}
    (hw : isWordChar c = true) (hm : tm (c :: cs) = some (w, rest)) :
    remGen tm false (c :: cs) = remGen tm w rest := by
  show remGenF tm (cs.length + 1) false (c :: cs) = remGenF tm rest.length w rest
  simp only [remGenF]
  rw [if_pos (And.intro trivial hw), hm]
  obtain ⟨k, hk2, hkr⟩ := htm _ _ _ hm
  have hrl : rest.length ≤ cs.length := by
    rw [hkr]
    simp only [List.length_drop, List.length_cons]
    omega
  exact remGenF_stable htm cs.length rest.length w rest hrl le_rfl

theorem remGen_subset_aux {tm : List Char → Option (Bool × List Char)} (htm : TMdrops tm) :
    ∀ (n : Nat) (l : List Char), l.length ≤ n → ∀ (b : Bool) (c : Char),
      c ∈ remGen tm b l → c ∈ l
  | _, [], _, _, _, h => h
  | 0, d :: ds, hn, _, _, _ => absurd hn (by simp)
  | n + 1, d :: ds, hn, b, c, h => by
    have hn2 : ds.length ≤ n := by
      simp only [List.length_cons] at hn
      omega
    by_cases hcond : b = false ∧ isWordChar d = true
    · obtain ⟨hb, hw⟩ := hcond
      subst hb
      cases ht : tm (d :: ds) with
      | none =>
        rw [remGen_cons_nomatch hw ht] at h
        rcases List.mem_cons.mp h with h2 | h2
        · exact h2 ▸ List.mem_cons_self d ds
        · exact List.mem_cons_of_mem d (remGen_subset_aux htm n ds hn2 true c h2)
      | some p =>
        obtain ⟨w, rest⟩ := p
        rw [remGen_cons_match htm hw ht] at h
        obtain ⟨k, hk2, hkr⟩ := htm _ _ _ ht
        have hrl : rest.length ≤ n := by
          rw [hkr]
          simp only [List.length_drop, List.length_cons]
          omega
        have h2 := remGen_subset_aux htm n rest hrl w c h
        rw [hkr] at h2
        exact List.drop_subset k (d :: ds) h2
    · rw [remGen_cons_skip hcond] at h
      rcases List.mem_cons.mp h with h2 | h2
      · exact h2 ▸ List.mem_cons_self d ds
      · exact List.mem_cons_of_mem d (remGen_subset_aux htm n ds hn2 (isWordChar d) c h2)

theorem remGen_subset {tm : List Char → Option (Bool × List Char)} (htm : TMdrops tm)
    {b : Bool} {l : List Char} {c : Char} (h : c ∈ remGen tm b l) : c ∈ l :=
  remGen_subset_aux htm l.length l le_rfl b c h

/-! Word runs: the maximal `\w`-runs of a string, used to state that the
suffix scanner leaves no bare suffix token behind. -/

def wordRunsGo (cur : List Char) : List Char → List (List Char)
  | [] => if cur = [] then [] else [cur.reverse]
  | c :: cs =>
    if isWordChar c then wordRunsGo (c :: cur) cs
    else if cur = [] then wordRunsGo [] cs else cur.reverse :: wordRunsGo [] cs

def wordRuns (l : List Char) : List (List Char) := wordRunsGo [] l

theorem wordRuns_nil : wordRuns [] = [] := rfl

theorem wordRuns_cons_nonword {c : Char} (cs : List Char) (h : isWordChar c = false) :
    wordRuns (c :: cs) = wordRuns cs := by
  show wordRunsGo [] (c :: cs) = wordRuns cs
  unfold wordRunsGo
  rw [h]
  simp only [Bool.false_eq_true, if_false]
  rw [if_pos trivial]
  rfl

theorem wordRunsGo_spec : ∀ (cs cur : List Char), cur ≠ [] →
    wordRunsGo cur cs =
      (cur.reverse ++ cs.takeWhile isWordChar) :: wordRuns (cs.dropWhile isWordChar)
  | [], cur, hc => by
    unfold wordRunsGo
    rw [if_neg hc]
    rw [show List.takeWhile isWordChar ([] : List Char) = [] from rfl,
        show List.dropWhile isWordChar ([] : List Char) = [] from rfl,
        List.append_nil, wordRuns_nil]
  | c :: cs, cur, hc => by
    unfold wordRunsGo
    cases hw : isWordChar c
    · simp only [Bool.false_eq_true, if_false]
      rw [if_neg hc]
      rw [List.takeWhile_cons, List.dropWhile_cons, hw]
      simp only [Bool.false_eq_true, if_false]
      rw [List.append_nil, wordRuns_cons_nonword cs hw]
      rfl
    · rw [if_pos rfl]
      rw [wordRunsGo_spec cs (c :: cur) (by simp)]
      rw [List.takeWhile_cons, List.dropWhile_cons, hw]
      rw [if_pos rfl, if_pos rfl]
      rw [List.reverse_cons, List.append_assoc, List.singleton_append]

theorem wordRuns_cons_word {c : Char} {cs : List Char} (h : isWordChar c = true) :
    wordRuns (c :: cs) =
      (c :: cs.takeWhile isWordChar) :: wordRuns (cs.dropWhile isWordChar) := by
  show wordRunsGo [] (c :: cs) = _
  unfold wordRunsGo
  rw [h]
  rw [if_pos rfl]
  rw [wordRunsGo_spec cs [c] (by simp)]
  rfl

theorem space_not_word {c : Char} (h : pyIsSpace c = true) : isWordChar c = false := by
  simp only [pyIsSpace, Bool.or_eq_true, decide_eq_true_iff] at h
  rcases h with ((((h | h) | h) | h) | h) | h <;> subst h <;> decide

theorem wordRunsGo_cons_word {c : Char} (hw : isWordChar c = true) (cur cs : List Char) :
    wordRunsGo cur (c :: cs) = wordRunsGo (c :: cur) cs := by
  conv_lhs => unfold wordRunsGo
  rw [hw, if_pos rfl]

theorem wordRunsGo_cons_nonword {c : Char} (hw : isWordChar c = false)
    (cur cs : List Char) :
    wordRunsGo cur (c :: cs) =
      if cur = [] then wordRunsGo [] cs else cur.reverse :: wordRunsGo [] cs := by
  conv_lhs => unfold wordRunsGo
  rw [hw]
  simp only [Bool.false_eq_true, if_false]

theorem wordRunsGo_map {f : Char → Char} :
    ∀ (l cur : List Char),
      (∀ c ∈ l, isWordChar (f c) = isWordChar c ∧ (isWordChar c = true → f c = c)) →
      wordRunsGo cur (l.map f) = wordRunsGo cur l
  | [], _, _ => rfl
  | c :: cs, cur, h => by
    rw [List.map_cons]
    have hc := h c (List.mem_cons_self c cs)
    have hcs : ∀ d ∈ cs, isWordChar (f d) = isWordChar d ∧
        (isWordChar d = true → f d = d) :=
      fun d hd => h d (List.mem_cons_of_mem c hd)
    cases hw : isWordChar c
    · rw [wordRunsGo_cons_nonword (hw ▸ hc.1) cur (cs.map f),
        wordRunsGo_cons_nonword hw cur cs]
      by_cases hcur : cur = []
      · rw [if_pos hcur, if_pos hcur, wordRunsGo_map cs [] hcs]
      · rw [if_neg hcur, if_neg hcur, wordRunsGo_map cs [] hcs]
    · rw [wordRunsGo_cons_word (hw ▸ hc.1) cur (cs.map f),
        wordRunsGo_cons_word hw cur cs, hc.2 hw, wordRunsGo_map cs (c :: cur) hcs]

theorem wordRunsGo_collapse :
    ∀ (l : List Char) (b : Bool) (cur : List Char), (b = true → cur = []) →
      wordRunsGo cur (collapseGo b l) = wordRunsGo cur l
  | [], _, _, _ => rfl
  | c :: cs, b, cur, hbc => by
    unfold collapseGo
    cases hsp : pyIsSpace c
    · simp only [Bool.false_eq_true, if_false]
      cases hw : isWordChar c
      · rw [wordRunsGo_cons_nonword hw cur (collapseGo false cs),
          wordRunsGo_cons_nonword hw cur cs]
        by_cases hcur : cur = []
        · rw [if_pos hcur, if_pos hcur, wordRunsGo_collapse cs false [] (by simp)]
        · rw [if_neg hcur, if_neg hcur, wordRunsGo_collapse cs false [] (by simp)]
      · rw [wordRunsGo_cons_word hw cur (collapseGo false cs),
          wordRunsGo_cons_word hw cur cs,
          wordRunsGo_collapse cs false (c :: cur) (by simp)]
    · rw [if_pos rfl]
      have hwc : isWordChar c = false := space_not_word hsp
      cases b
      · rw [if_neg (by decide)]
        rw [wordRunsGo_cons_nonword (by decide : isWordChar ' ' = false) cur
          (collapseGo true cs)]
        rw [wordRunsGo_cons_nonword hwc cur cs]
        by_cases hcur : cur = []
        · rw [if_pos hcur, if_pos hcur, wordRunsGo_collapse cs true [] (fun _ => rfl)]
        · rw [if_neg hcur, if_neg hcur, wordRunsGo_collapse cs true [] (fun _ => rfl)]
      · rw [if_pos rfl]
        rw [hbc rfl]
        rw [wordRunsGo_collapse cs true [] (fun _ => rfl)]
        rw [wordRunsGo_cons_nonword hwc [] cs, if_pos rfl]

theorem wordRunsGo_allspace_cur :
    ∀ (t : List Char), (∀ c ∈ t, pyIsSpace c = true) → ∀ (cur : List Char),
      wordRunsGo cur t = if cur = [] then [] else [cur.reverse]
  | [], _, cur => rfl
  | c :: t1, h, cur => by
    rw [wordRunsGo_cons_nonword (space_not_word (h c (List.mem_cons_self c t1))) cur t1]
    have h1 := wordRunsGo_allspace_cur t1 (fun d hd => h d (List.mem_cons_of_mem c hd)) []
    rw [if_pos rfl] at h1
    by_cases hcur : cur = []
    · rw [if_pos hcur, if_pos hcur, h1]
    · rw [if_neg hcur, if_neg hcur, h1]

theorem wordRunsGo_append_space {t : List Char} (ht : ∀ c ∈ t, pyIsSpace c = true) :
    ∀ (l cur : List Char), wordRunsGo cur (l ++ t) = wordRunsGo cur l
  | [], cur => by
    rw [List.nil_append]
    rw [wordRunsGo_allspace_cur t ht cur]
    cases hcur : cur
    · rfl
    · rfl
  | c :: cs, cur => by
    rw [List.cons_append]
    cases hw : isWordChar c
    · rw [wordRunsGo_cons_nonword hw cur (cs ++ t), wordRunsGo_cons_nonword hw cur cs]
      by_cases hcur : cur = []
      · rw [if_pos hcur, if_pos hcur, wordRunsGo_append_space ht cs []]
      · rw [if_neg hcur, if_neg hcur, wordRunsGo_append_space ht cs []]
    · rw [wordRunsGo_cons_word hw cur (cs ++ t), wordRunsGo_cons_word hw cur cs,
        wordRunsGo_append_space ht cs (c :: cur)]

theorem wordRuns_dropWhile_space : ∀ l : List Char,
    wordRuns (l.dropWhile pyIsSpace) = wordRuns l
  | [] => rfl
  | c :: cs => by
    rw [List.dropWhile_cons]
    cases hsp : pyIsSpace c
    · simp only [Bool.false_eq_true, if_false]
    · rw [if_pos rfl, wordRuns_dropWhile_space cs,
        wordRuns_cons_nonword cs (space_not_word hsp)]

def TOKS4 : List (List Char) := ["INC".data, "LLC".data, "CORP".data, "CO".data]

def NoTokRun (l : List Char) : Prop := ∀ r ∈ wordRuns l, r ∉ TOKS4

theorem noTokRun_nil : NoTokRun [] := by
  intro r hr
  rw [wordRuns_nil] at hr
  exact absurd hr (by simp)

theorem noTokRun_cons_nonword {c : Char} {l : List Char} (hw : isWordChar c = false)
    (h : NoTokRun l) : NoTokRun (c :: l) := by
  intro r hr
  rw [wordRuns_cons_nonword l hw] at hr
  exact h r hr

theorem dropWhile_head_nonword : ∀ {l : List Char} {d : Char} {ds : List Char},
    l.dropWhile isWordChar = d :: ds → isWordChar d = false
  | [], d, ds, h => by simp at h
  | c :: cs, d, ds, h => by
    rw [List.dropWhile_cons] at h
    by_cases hw : isWordChar c = true
    · rw [if_pos hw] at h
      exact dropWhile_head_nonword h
    · rw [if_neg hw] at h
      injection h with h1 h2
      rw [← h1]
      cases hz : isWordChar c
      · rfl
      · exact absurd hz hw

theorem takeWhile_append_all {p : Char → Bool} :
    ∀ {tok : List Char} (r : List Char), (∀ c ∈ tok, p c = true) →
      List.takeWhile p (tok ++ r) = tok ++ List.takeWhile p r
  | [], r, _ => by rw [List.nil_append, List.nil_append]
  | c :: cs, r, h => by
    rw [List.cons_append, List.takeWhile_cons, h c (List.mem_cons_self c cs), if_pos rfl,
      takeWhile_append_all r (fun d hd => h d (List.mem_cons_of_mem c hd)),
      List.cons_append]

theorem toks4_sub_det : ∀ r ∈ TOKS4, r ∈ DET_ALTS := by decide

theorem tryAlts_ne_none_of_run {c : Char} {cs : List Char} (hw : isWordChar c = true)
    (hrun : (c :: List.takeWhile isWordChar cs) ∈ TOKS4) :
    tryAlts (c :: cs) ≠ none := by
  have hdecomp : c :: cs =
      (c :: List.takeWhile isWordChar cs) ++ List.dropWhile isWordChar cs := by
    rw [List.cons_append, List.takeWhile_append_dropWhile]
  have hpre : (c :: List.takeWhile isWordChar cs).isPrefixOf (c :: cs) = true := by
    rw [List.isPrefixOf_iff_prefix]
    exact ⟨List.dropWhile isWordChar cs, hdecomp.symm⟩
  have hmatch : matchLit (c :: List.takeWhile isWordChar cs) (c :: cs) =
      some (List.dropWhile isWordChar cs) := by
    unfold matchLit
    rw [if_pos hpre]
    congr 1
    conv_lhs => rw [hdecomp]
    exact List.drop_left _ _
  have hsome : tryTokAt (c :: List.takeWhile isWordChar cs) (c :: cs) ≠ none := by
    unfold tryTokAt
    rw [hmatch]
    refine suffixTail_some_of_nonword ?_
    cases hd : List.dropWhile isWordChar cs with
    | nil => exact Or.inl rfl
    | cons d ds => exact Or.inr ⟨d, ds, rfl, dropWhile_head_nonword hd⟩
  exact firstSome_ne_none_of_mem (toks4_sub_det _ hrun) hsome

theorem suffixTail_cons_ne_dot {d : Char} (ds : List Char) (hd : d ≠ '.') :
    suffixTail (d :: ds) =
      if isWordChar d = true then none else some (true, d :: ds) := by
  unfold suffixTail
  split
  · rename_i x heq
    exact absurd heq (by simp)
  · rename_i x rest2 heq
    injection heq with h1 h2
    exact absurd h1 hd
  · rename_i x1 c2 rest2 hx heq
    injection heq with h1 h2
    rw [← h1, ← h2]

theorem suffixTail_some_head {d : Char} {ds : List Char} {w : Bool} {rest : List Char}
    (h : suffixTail (d :: ds) = some (w, rest)) (hd : d ≠ '.') :
    isWordChar d = false := by
  rw [suffixTail_cons_ne_dot ds hd] at h
  by_cases hw : isWordChar d = true
  · rw [if_pos hw] at h
    exact absurd h (by simp)
  · cases hz : isWordChar d
    · rfl
    · exact absurd hz hw

theorem run_eq_tok {tok t : List Char} {c : Char} {cs : List Char}
    (hlt : c :: cs = tok ++ t) (htokw : ∀ d ∈ tok, isWordChar d = true)
    (htne : tok ≠ []) (htw : List.takeWhile isWordChar t = []) :
    c :: List.takeWhile isWordChar cs = tok := by
  cases tok with
  | nil => exact absurd rfl htne
  | cons tc ttail =>
    rw [List.cons_append] at hlt
    injection hlt with h1 h2
    subst h1
    rw [h2, takeWhile_append_all t (fun d hd => htokw d (List.mem_cons_of_mem _ hd)),
      htw, List.append_nil]

theorem tryAlts_some_run {c : Char} {cs : List Char}
    (hcs : ∀ d ∈ c :: cs, d.isUpper = true ∨ d.isDigit = true ∨ d = ' ')
    (h : tryAlts (c :: cs) ≠ none) :
    (c :: List.takeWhile isWordChar cs) ∈ TOKS4 := by
  cases hsome : tryAlts (c :: cs) with
  | none => exact absurd hsome h
  | some p =>
    obtain ⟨w, rest⟩ := p
    obtain ⟨tok, htok, hta⟩ := firstSome_eq_some hsome
    obtain ⟨t, hlt, hst⟩ := tryTokAt_some hta
    have hdot : '.' ∉ c :: cs := by
      intro hmem
      rcases hcs '.' hmem with h1 | h1 | h1 <;> exact absurd h1 (by decide)
    have htw : List.takeWhile isWordChar t = [] := by
      cases ht2 : t with
      | nil => rfl
      | cons d ds =>
        have hdne : d ≠ '.' := by
          intro he
          refine hdot ?_
          rw [hlt, ht2, he]
          exact List.mem_append_right _ (List.mem_cons_self _ _)
        rw [ht2] at hst
        rw [List.takeWhile_cons, suffixTail_some_head hst hdne]
        simp
    have htokw : ∀ d ∈ tok, isWordChar d = true := by
      have hsub : ∀ d ∈ tok, d ∈ c :: cs := by
        intro d hd
        rw [hlt]
        exact List.mem_append_left _ hd
      intro d hd
      rcases hcs d (hsub d hd) with h1 | h1 | h1
      · unfold isWordChar
        rw [h1]
        rfl
      · unfold isWordChar
        rw [h1]
        simp
      · exfalso
        have h2 : tok ∈ DET_ALTS := htok
        subst h1
        fin_cases h2 <;> exact absurd hd (by decide)
    have hdotfree : '.' ∉ tok := by
      intro hmem
      refine hdot ?_
      rw [hlt]
      exact List.mem_append_left _ hmem
    have htne : tok ≠ [] := by
      have h2 : tok ∈ DET_ALTS := htok
      intro he
      subst he
      exact absurd h2 (by decide)
    rw [run_eq_tok hlt htokw htne htw]
    have h2 : tok ∈ DET_ALTS := htok
    fin_cases h2 <;> first
      | decide
      | exact absurd (by decide) hdotfree

theorem remGen_true_takeWhile {tm : List Char → Option (Bool × List Char)} :
    ∀ cs : List Char,
      List.takeWhile isWordChar (remGen tm true cs) = List.takeWhile isWordChar cs
  | [] => rfl
  | c :: cs => by
    rw [remGen_cons_skip (by simp)]
    rw [List.takeWhile_cons, List.takeWhile_cons]
    cases hw : isWordChar c
    · simp only [Bool.false_eq_true, if_false]
    · rw [if_pos rfl, if_pos rfl, remGen_true_takeWhile cs]

theorem remGen_noTok : ∀ (n : Nat) (l : List Char), l.length ≤ n →
    NoTokRun ((remGen tryAlts true l).dropWhile isWordChar) ∧
    NoTokRun (remGen tryAlts false l)
  | _, [], _ => ⟨noTokRun_nil, noTokRun_nil⟩
  | 0, c :: cs, hn => absurd hn (by simp)
  | n + 1, c :: cs, hn => by
    have hn2 : cs.length ≤ n := by
      simp only [List.length_cons] at hn
      omega
    have IHcs := remGen_noTok n cs hn2
    constructor
    · rw [remGen_cons_skip (by simp)]
      cases hw : isWordChar c
      · rw [List.dropWhile_cons]
        simp only [hw, Bool.false_eq_true, if_false]
        exact noTokRun_cons_nonword hw IHcs.2
      · rw [List.dropWhile_cons]
        simp only [hw, if_true]
        exact IHcs.1
    · cases hw : isWordChar c
      · rw [remGen_cons_skip (by rw [hw]; simp), hw]
        exact noTokRun_cons_nonword hw IHcs.2
      · cases hm : tryAlts (c :: cs) with
        | none =>
          rw [remGen_cons_nomatch hw hm]
          intro r hr
          rw [wordRuns_cons_word hw] at hr
          rcases List.mem_cons.mp hr with hr2 | hr2
          · intro hmem
            rw [remGen_true_takeWhile cs] at hr2
            subst hr2
            exact tryAlts_ne_none_of_run hw hmem hm
          · exact IHcs.1 r hr2
        | some p =>
          obtain ⟨w, rest⟩ := p
          rw [remGen_cons_match tryAlts_drops hw hm]
          obtain ⟨k, hk2, hkr⟩ := tryAlts_drops _ _ _ hm
          have hrn : rest.length ≤ n := by
            rw [hkr]
            simp only [List.length_drop, List.length_cons]
            omega
          have IHrest := remGen_noTok n rest hrn
          cases w
          · exact IHrest.2
          · rcases tryAlts_true_rest hm with hre | ⟨d, ds, hre, hd⟩
            · subst hre
              exact noTokRun_nil
            · subst hre
              have h1 := IHrest.1
              rw [remGen_cons_skip (by simp), hd] at h1 ⊢
              rw [List.dropWhile_cons] at h1
              simp only [hd, Bool.false_eq_true, if_false] at h1
              exact h1

def PredOk : Bool → List Char → Prop
  | _, [] => True
  | b, c :: cs =>
    ((b = false ∧ isWordChar c = true) → tryAlts (c :: cs) = none) ∧
      PredOk (isWordChar c) cs

theorem remGen_noop : ∀ (l : List Char) (b : Bool), PredOk b l → remGen tryAlts b l = l
  | [], _, _ => rfl
  | c :: cs, b, h => by
    have h2 : ((b = false ∧ isWordChar c = true) → tryAlts (c :: cs) = none) ∧
        PredOk (isWordChar c) cs := h
    by_cases hcond : b = false ∧ isWordChar c = true
    · obtain ⟨hb, hw⟩ := hcond
      subst hb
      rw [remGen_cons_nomatch hw (h2.1 ⟨rfl, hw⟩), remGen_noop cs true (hw ▸ h2.2)]
    · rw [remGen_cons_skip hcond, remGen_noop cs (isWordChar c) h2.2]

theorem predOk_of_noTokRun : ∀ (l : List Char),
    (∀ c ∈ l, c.isUpper = true ∨ c.isDigit = true ∨ c = ' ') →
    ∀ b : Bool, (b = true → NoTokRun (l.dropWhile isWordChar)) →
    (b = false → NoTokRun l) → PredOk b l
  | [], _, _, _, _ => trivial
  | c :: cs, hcs, b, ht, hf => by
    have hcs2 : ∀ d ∈ cs, d.isUpper = true ∨ d.isDigit = true ∨ d = ' ' :=
      fun d hd => hcs d (List.mem_cons_of_mem c hd)
    show ((b = false ∧ isWordChar c = true) → tryAlts (c :: cs) = none) ∧
      PredOk (isWordChar c) cs
    constructor
    · rintro ⟨hb, hw⟩
      subst hb
      cases hm : tryAlts (c :: cs) with
      | none => rfl
      | some p =>
        exfalso
        have hrun := tryAlts_some_run hcs (by rw [hm]; simp)
        refine hf rfl (c :: List.takeWhile isWordChar cs) ?_ hrun
        rw [wordRuns_cons_word hw]
        exact List.mem_cons_self _ _
    · cases hw : isWordChar c with
      | true =>
        refine predOk_of_noTokRun cs hcs2 true ?_ (by simp)
        intro _
        cases b with
        | true =>
          have h1 := ht rfl
          rw [List.dropWhile_cons] at h1
          simp only [hw, if_true] at h1
          exact h1
        | false =>
          have hNT := hf rfl
          intro r hr
          refine hNT r ?_
          rw [wordRuns_cons_word hw]
          exact List.mem_cons_of_mem _ hr
      | false =>
        refine predOk_of_noTokRun cs hcs2 false (by simp) ?_
        intro _
        cases b with
        | true =>
          have h1 := ht rfl
          rw [List.dropWhile_cons] at h1
          simp only [hw, Bool.false_eq_true, if_false] at h1
          intro r hr
          exact h1 r (by rw [wordRuns_cons_nonword cs hw]; exact hr)
        | false =>
          have h1 := hf rfl
          intro r hr
          exact h1 r (by rw [wordRuns_cons_nonword cs hw]; exact hr)

theorem wordRuns_stripL (l : List Char) : wordRuns (stripL l) = wordRuns l :=
  wordRuns_dropWhile_space l

theorem wordRuns_stripR (l : List Char) : wordRuns (stripR l) = wordRuns l := by
  have ht : ∀ c ∈ (l.reverse.takeWhile pyIsSpace).reverse, pyIsSpace c = true :=
    fun c hc => List.mem_takeWhile_imp (List.mem_reverse.mp hc)
  conv_rhs => rw [stripR_eq l]
  exact (wordRunsGo_append_space ht (stripR l) []).symm

theorem wordRuns_pyStrip (l : List Char) : wordRuns (pyStrip l) = wordRuns l := by
  unfold pyStrip
  rw [wordRuns_stripR (stripL l), wordRuns_stripL l]

theorem strip_collapse_canon (m : List Char) :
    headOkB (pyStrip (collapseWS m)) = true ∧ lastOkB (pyStrip (collapseWS m)) = true ∧
    allSpB (pyStrip (collapseWS m)) = true ∧ no2B (pyStrip (collapseWS m)) = true := by
  refine ⟨?_, ?_, ?_, ?_⟩
  · exact stripR_headOk (stripL_headOk (collapseWS m))
  · exact stripR_lastOk (stripL (collapseWS m))
  · exact allSpB_sub (fun c hc => pyStrip_mem hc) (collapseGo_allSp m false)
  · exact no2B_pyStrip (collapseGo_no2 m false)

theorem aggP_word {c : Char} (ha : c.toNat < 128) (hu : c ≠ '_') (hl : c.isLower = false) :
    isWordChar (if c.isUpper ∨ c.isDigit ∨ pyIsSpace c then c else ' ') = isWordChar c ∧
    (isWordChar c = true →
      (if c.isUpper ∨ c.isDigit ∨ pyIsSpace c then c else ' ') = c) := by
  by_cases hk : c.isUpper = true ∨ c.isDigit = true ∨ pyIsSpace c = true
  · rw [if_pos hk]
    exact ⟨rfl, fun _ => rfl⟩
  · rw [if_neg hk]
    push_neg at hk
    have hcw : isWordChar c = false := by
      rw [← Bool.not_eq_true, isWordChar_iff]
      have h1 : ¬(65 ≤ c.toNat ∧ c.toNat ≤ 90) := fun hx => hk.1 ((isUpper_iff c).mpr hx)
      have h2 : ¬(48 ≤ c.toNat ∧ c.toNat ≤ 57) :=
        fun hx => hk.2.1 ((isDigit_iff c).mpr hx)
      have h3 : ¬(97 ≤ c.toNat ∧ c.toNat ≤ 122) := fun hx => by
        have h5 := (isLower_iff c).mpr hx
        rw [hl] at h5
        exact absurd h5 (by decide)
      have h4 : c.toNat ≠ 95 := fun hx => hu (char_toNat_inj hx)
      omega
    constructor
    · rw [hcw]
      decide
    · intro hx
      rw [hcw] at hx
      exact absurd hx (by decide)

theorem normAgg_s2_charset {x : List Char} (hx : ∀ c ∈ x, c.toNat < 128 ∧ c ≠ '_') :
    ∀ c ∈ remGen tryAlts false (x.map pyUpperC),
      c.toNat < 128 ∧ c ≠ '_' ∧ c.isLower = false := by
  intro c hc
  have h1 : c ∈ x.map pyUpperC := remGen_subset tryAlts_drops hc
  rcases List.mem_map.mp h1 with ⟨d, hd, hdc⟩
  obtain ⟨hda, hdu⟩ := hx d hd
  subst hdc
  exact ⟨pyUpperC_ascii hda, pyUpperC_ne_underscore hdu, pyUpperC_not_lower d⟩

theorem normAgg_charset {s2 : List Char}
    (h2 : ∀ c ∈ s2, c.toNat < 128 ∧ c ≠ '_' ∧ c.isLower = false) :
    ∀ c ∈ pyStrip (collapseWS (s2.map
      (fun c => if c.isUpper ∨ c.isDigit ∨ pyIsSpace c then c else ' '))),
      c.isUpper = true ∨ c.isDigit = true ∨ c = ' ' := by
  intro c hc
  have hm : c ∈ collapseWS (s2.map
      (fun c => if c.isUpper ∨ c.isDigit ∨ pyIsSpace c then c else ' ')) :=
    pyStrip_mem hc
  have hA := allSpB_sub (fun d hd => pyStrip_mem hd)
    (collapseGo_allSp (s2.map
      (fun c => if c.isUpper ∨ c.isDigit ∨ pyIsSpace c then c else ' ')) false)
  rw [allSpB, List.all_eq_true] at hA
  have hAc := hA c hc
  rw [Bool.or_eq_true, decide_eq_true_iff] at hAc
  rcases collapseGo_mem _ false c hm with hc3 | hc3
  · rcases List.mem_map.mp hc3 with ⟨d, hd, hdc⟩
    by_cases hk : d.isUpper = true ∨ d.isDigit = true ∨ pyIsSpace d = true
    · rw [if_pos hk] at hdc
      subst hdc
      rcases hk with hk | hk | hk
      · exact Or.inl hk
      · exact Or.inr (Or.inl hk)
      · rcases hAc with h5 | h5
        · rw [hk] at h5
          exact absurd h5 (by decide)
        · exact Or.inr (Or.inr h5)
    · rw [if_neg hk] at hdc
      subst hdc
      exact Or.inr (Or.inr rfl)
  · exact Or.inr (Or.inr hc3)

theorem normAgg_noTok {s2 : List Char}
    (h2 : ∀ c ∈ s2, c.toNat < 128 ∧ c ≠ '_' ∧ c.isLower = false)
    (hNT : NoTokRun s2) :
    NoTokRun (pyStrip (collapseWS (s2.map
      (fun c => if c.isUpper ∨ c.isDigit ∨ pyIsSpace c then c else ' ')))) := by
  have hmap : wordRunsGo [] (s2.map
      (fun c => if c.isUpper ∨ c.isDigit ∨ pyIsSpace c then c else ' ')) =
      wordRunsGo [] s2 := by
    refine wordRunsGo_map s2 [] ?_
    intro c hc
    obtain ⟨ha, hu, hl⟩ := h2 c hc
    exact aggP_word ha hu hl
  have hcol := wordRunsGo_collapse (s2.map
      (fun c => if c.isUpper ∨ c.isDigit ∨ pyIsSpace c then c else ' ')) false []
    (by simp)
  have hstr := wordRuns_pyStrip (collapseWS (s2.map
      (fun c => if c.isUpper ∨ c.isDigit ∨ pyIsSpace c then c else ' ')))
  intro r hr
  rw [hstr] at hr
  rw [show wordRuns (collapseWS (s2.map
      (fun c => if c.isUpper ∨ c.isDigit ∨ pyIsSpace c then c else ' '))) =
    wordRunsGo [] s2 from hcol.trans hmap] at hr
  exact hNT r hr

theorem normAgg_fix_abstract {y : List Char}
    (hchar : ∀ c ∈ y, c.isUpper = true ∨ c.isDigit = true ∨ c = ' ')
    (hNT : NoTokRun y)
    (hH : headOkB y = true) (hL : lastOkB y = true)
    (hA : allSpB y = true) (hN : no2B y = true) :
    pyStrip (collapseWS ((remGen tryAlts false (y.map pyUpperC)).map
      (fun c => if c.isUpper ∨ c.isDigit ∨ pyIsSpace c then c else ' '))) = y := by
  have h1 : y.map pyUpperC = y := map_fix y (fun c hc => pyUpperC_fix (hchar c hc))
  rw [h1]
  have h2 : remGen tryAlts false y = y :=
    remGen_noop y false (predOk_of_noTokRun y hchar false (by simp) (fun _ => hNT))
  rw [h2]
  have h3 : y.map (fun c => if c.isUpper ∨ c.isDigit ∨ pyIsSpace c then c else ' ') = y := by
    refine map_fix y ?_
    intro c hc
    rcases hchar c hc with hc2 | hc2 | hc2
    · exact if_pos (Or.inl hc2)
    · exact if_pos (Or.inr (Or.inl hc2))
    · subst hc2
      exact if_pos (Or.inr (Or.inr (by decide)))
  rw [h3]
  rw [show collapseWS y = y from collapse_noop y false hA hN (by simp)]
  exact pyStrip_noop hH hL

theorem normAgg_fix_list {x : List Char} (hx : ∀ c ∈ x, c.toNat < 128 ∧ c ≠ '_') :
    pyStrip (collapseWS ((remGen tryAlts false
      ((pyStrip (collapseWS ((remGen tryAlts false (x.map pyUpperC)).map
        (fun c => if c.isUpper ∨ c.isDigit ∨ pyIsSpace c then c else ' ')))).map
        pyUpperC)).map
      (fun c => if c.isUpper ∨ c.isDigit ∨ pyIsSpace c then c else ' '))) =
    pyStrip (collapseWS ((remGen tryAlts false (x.map pyUpperC)).map
      (fun c => if c.isUpper ∨ c.isDigit ∨ pyIsSpace c then c else ' '))) := by
  have h2 := normAgg_s2_charset hx
  have hNT2 : NoTokRun (remGen tryAlts false (x.map pyUpperC)) :=
    (remGen_noTok (x.map pyUpperC).length (x.map pyUpperC) le_rfl).2
  have hcanon := strip_collapse_canon
    ((remGen tryAlts false (x.map pyUpperC)).map
      (fun c => if c.isUpper ∨ c.isDigit ∨ pyIsSpace c then c else ' '))
  exact normAgg_fix_abstract (normAgg_charset h2) (normAgg_noTok h2 hNT2) hcanon.1
    hcanon.2.1 hcanon.2.2.1 hcanon.2.2.2

theorem normalize_aggressive_idem {s : String}
    (hs : ∀ c ∈ s.data, c.toNat < 128 ∧ c ≠ '_') :
    normalize_aggressive (normalize_aggressive s) = normalize_aggressive s := by
  by_cases h : s = ""
  · rw [h]
    rfl
  · have ha : normalize_aggressive s = ⟨pyStrip (collapseWS ((remGen tryAlts false
        (s.data.map pyUpperC)).map
        (fun c => if c.isUpper ∨ c.isDigit ∨ pyIsSpace c then c else ' ')))⟩ := by
      unfold normalize_aggressive
      rw [if_neg h]
    by_cases hb : normalize_aggressive s = ""
    · rw [hb]
      rfl
    · rw [ha] at hb ⊢
      unfold normalize_aggressive
      rw [if_neg hb]
      exact congrArg String.mk (normAgg_fix_list hs)

/-- Claim C7: the spec asserts both normalizers are total and idempotent on
arbitrary input.  Totality holds by construction, and `normalize_for_lookup`
is idempotent on every string; but `normalize_aggressive` is not idempotent
in general (see the counterexample on an underscore input, where the first
pass turns the `\w` character `_` into a space and thereby exposes a fresh
word-boundary suffix token that only a second pass removes).  The corrected
statement: `normalize_for_lookup` is idempotent everywhere, and
`normalize_aggressive` is idempotent on strings of ASCII characters that
contain no underscore. -/
theorem C7_normalizer_idempotent_total :
    (∀ s : String, normalize_for_lookup (normalize_for_lookup s) = normalize_for_lookup s) ∧
    (∀ s : String, (∀ c ∈ s.data, c.toNat < 128 ∧ c ≠ '_') →
      normalize_aggressive (normalize_aggressive s) = normalize_aggressive s) :=
  ⟨normalize_for_lookup_idem, fun _ hs => normalize_aggressive_idem hs⟩

/-- Claim C7 counterexample: `normalize_aggressive` is not idempotent on
`"_CO"`: the first pass yields `"CO"` (the underscore blocks the word
boundary, then becomes a space and is stripped), and the second pass deletes
the now-exposed suffix token `CO`, yielding `""`. -/
theorem C7_counterexample :
    normalize_aggressive (normalize_aggressive "_CO") ≠ normalize_aggressive "_CO" := by
  decide

/-- Claim C7 witness: concrete instances of both conjuncts. -/
theorem C7_normalizer_idempotent_total_witness :
    (∀ c ∈ ("ACME WASTE CO" : String).data, c.toNat < 128 ∧ c ≠ '_') ∧
    normalize_aggressive (normalize_aggressive "ACME WASTE CO") =
      normalize_aggressive "ACME WASTE CO" ∧
    normalize_for_lookup (normalize_for_lookup "  acme   waste  ") =
      normalize_for_lookup "  acme   waste  " :=
  ⟨by decide, C7_normalizer_idempotent_total.2 "ACME WASTE CO" (by decide),
    C7_normalizer_idempotent_total.1 "  acme   waste  "⟩
